import Mathlib

/-!
Verification of the silleback recommendation core against its specification.

This file gives a shallow embedding, in Lean 4, of the two algorithmic
components of the repository:

* `api/utils/occasion_classifier.py` (`AccordOccasionClassifier`), and
* `api/recommendations/predictor.py` (`generate_recommendations` and its
  helpers `_get_all_accord_list`, `_get_user_survey_vector_and_gender`,
  `_get_perfume_accord_data`).

Modelling conventions:

* Python/NumPy floating point arithmetic is modelled by exact rationals
  (`ℚ`).  All constants appearing in the source (0.2, 0.6, 0.5, 2.5, …)
  are carried over as exact rationals; IEEE rounding is abstracted away.
* Database state is externalized: the `Accord` table is a list of names,
  the `Perfume` table a list of `PerfumeRow`s (in queryset order), and a
  user's `SurveyResponse.response_data` is an association list of JSON
  values.  `ORDER BY name` is modelled by a sort under the binary
  (codepoint) string order.
* `np.log1p` is transcendental and hence not a rational function; the
  embedding takes it as an explicit function parameter `log1p : ℚ → ℚ`.
  No theorem below depends on its values except through the hypothesis
  `log1p 0 = 0`, which is exact for `np.log1p`.
* Python's `sorted` (Timsort) is a stable sort; it is modelled by a
  stable insertion sort `insSort`.  pandas `sort_values(ascending=False)`
  reverses the values *before* the ascending argsort and the indexer
  *after* (`pandas.core.sorting.nargsort`), so the two reversals cancel
  on tie blocks and equal keys keep their original row order: a stable
  descending sort, modelled by `insSort` with a strict descending
  comparison.  (NumPy's argsort is stable for the small arrays in the
  concrete inputs below, and pandas' test suite asserts the stable
  descending order.)
-/

/-! ### A stable insertion sort

`insOrd lt x l` inserts `x` into `l` immediately before the first element
`y` with `lt y x = false`; `insSort lt` is the corresponding insertion
sort.  For any strict comparison `lt` this is a stable sort: elements the
comparison cannot distinguish keep their relative order.  It models both
Python's `sorted` (stable Timsort) and pandas' `nargsort`-based
`sort_values`. -/

def insOrd {α : Type} (lt : α → α → Bool) (x : α) : List α → List α
  | [] => [x]
  | y :: ys => if lt y x then y :: insOrd lt x ys else x :: y :: ys

def insSort {α : Type} (lt : α → α → Bool) : List α → List α
  | [] => []
  | x :: xs => insOrd lt x (insSort lt xs)

/-- Python's `str.lower()`.  All strings handled by the repository's core
(accord names, occasion names, gender strings) are ASCII, on which
Python's Unicode lowering agrees with per-character ASCII lowering. -/
def pyLower (s : String) : String := String.mk (s.data.map Char.toLower)

/-! ### Occasion classifier (`api/utils/occasion_classifier.py`)

The classifier is a pure function; the embedding mirrors
`AccordOccasionClassifier` field by field.  A Python `dict` preserving
insertion order is modelled by an association list, and
`defaultdict(float)` accumulation by `addScore`, which updates an
existing key in place and appends a new key at the end. -/

namespace Occ

/-- One occasion's accord→weight table (a Python dict literal, in
declaration order). -/
abbrev WeightTable := List (String × ℚ)

def deporteWeights : WeightTable :=
  [("fresh", 3.0), ("citrus", 3.0), ("aquatic", 3.0), ("aromatic", 2.5),
   ("green", 2.5), ("herbal", 2.5), ("marine", 3.0), ("ozonic", 2.5),
   ("fruity", 1.5), ("woody", 1.0)]

def oficinaWeights : WeightTable :=
  [("powdery", 3.0), ("woody", 2.5), ("iris", 2.5), ("soft spicy", 2.5),
   ("musky", 2.0), ("fresh spicy", 2.0), ("fresh", 2.0), ("aromatic", 2.0),
   ("citrus", 1.5), ("amber", 1.5), ("floral", 1.5), ("violet", 2.0)]

def casualWeights : WeightTable :=
  [("fruity", 3.0), ("sweet", 2.5), ("vanilla", 2.5), ("citrus", 2.5),
   ("fresh", 2.5), ("aromatic", 2.0), ("floral", 2.0), ("green", 2.0),
   ("lavender", 2.0), ("coconut", 2.5)]

def fiestaWeights : WeightTable :=
  [("sweet", 3.0), ("fruity", 2.5), ("caramel", 3.0), ("cacao", 3.0),
   ("rum", 3.0), ("warm spicy", 2.5), ("amber", 2.0), ("vanilla", 2.5),
   ("chocolate", 3.0), ("coffee", 2.5), ("honey", 2.5), ("almond", 2.5)]

def sexyWeights : WeightTable :=
  [("animalic", 3.0), ("leather", 3.0), ("oud", 2.5), ("amber", 2.5),
   ("warm spicy", 2.5), ("musky", 2.5), ("sweet", 2.0), ("vanilla", 2.0),
   ("oriental", 2.5), ("spicy", 2.5), ("smoky", 2.0), ("patchouli", 2.0)]

def formalWeights : WeightTable :=
  [("woody", 3.0), ("oud", 3.0), ("leather", 2.5), ("powdery", 2.5),
   ("iris", 3.0), ("smoky", 2.5), ("tobacco", 3.0), ("amber", 2.0),
   ("rose", 2.0), ("incense", 2.5), ("vetiver", 2.5), ("cedar", 2.5)]

def especialWeights : WeightTable :=
  [("rose", 3.0), ("white floral", 3.0), ("iris", 2.5), ("violet", 2.5),
   ("jasmine", 3.0), ("tuberose", 3.0), ("ylang-ylang", 2.5),
   ("narcissus", 2.5), ("orange blossom", 2.5), ("orchid", 2.5),
   ("gardenia", 2.5)]

/-- `ACCORD_OCCASION_MAP`, in declaration order. -/
def ACCORD_OCCASION_MAP : List (String × WeightTable) :=
  [("Deporte", deporteWeights), ("Oficina", oficinaWeights),
   ("Casual", casualWeights), ("Fiesta", fiestaWeights),
   ("Sexy", sexyWeights), ("Formal", formalWeights),
   ("Especial", especialWeights)]

/-- Dict lookup `accord_weights.get(name)` on a weight table. -/
def lookupWeight (t : WeightTable) (name : String) : Option ℚ :=
  (t.find? (fun p => p.1 == name)).map (·.2)

/-- `position_weight = max(3 - position, 1)` (Python ints; the
subtraction may go negative before the `max`). -/
def positionWeight (pos : ℕ) : ℚ :=
  ((max (3 - (pos : ℤ)) 1 : ℤ) : ℚ)

/-- `occasion_scores[occasion] += w` on a `defaultdict(float)`: update an
existing key in place, or append the new key at the end (Python dicts
preserve insertion order). -/
def addScore (d : List (String × ℚ)) (occ : String) (w : ℚ) :
    List (String × ℚ) :=
  match d with
  | [] => [(occ, w)]
  | (o, v) :: rest =>
      if o = occ then (o, v + w) :: rest else (o, v) :: addScore rest occ w

/-- The inner loop of `classify_perfume`: one accord's contribution to
every occasion of `ACCORD_OCCASION_MAP`, scanned in declaration order. -/
def scoreStep (d : List (String × ℚ)) (a : String × ℕ) :
    List (String × ℚ) :=
  ACCORD_OCCASION_MAP.foldl
    (fun d' ow =>
      match lookupWeight ow.2 (pyLower a.1) with
      | some bw => addScore d' ow.1 (bw * positionWeight a.2)
      | none => d')
    d

/-- `occasion_scores` as accumulated over the input accords. -/
def occasionScores (accords : List (String × ℕ)) : List (String × ℚ) :=
  accords.foldl scoreStep []

/-- `sorted(occasion_scores.items(), key=lambda x: x[1], reverse=True)`:
stable sort, descending by score, ties keeping dict insertion order. -/
def sortedOccasions (accords : List (String × ℕ)) : List (String × ℚ) :=
  insSort (fun a b => decide (b.2 < a.2)) (occasionScores accords)

/-- Classifier configuration (`__init__` arguments). -/
structure Config where
  min_occasions : ℕ
  max_occasions : ℕ
  score_threshold : ℚ
deriving DecidableEq

/-- The defaults `min_occasions=1, max_occasions=3, score_threshold=4.0`
(also the values used by the `reclassify_occasions` command). -/
def defaultConfig : Config := ⟨1, 3, 4.0⟩

/-- First selection loop: keep occasions with score ≥ threshold while
room remains under `max_occasions`. -/
def selectTop (cfg : Config) : List (String × ℚ) → List String → List String
  | [], sel => sel
  | (o, s) :: rest, sel =>
      selectTop cfg rest
        (if cfg.score_threshold ≤ s ∧ sel.length < cfg.max_occasions
         then sel ++ [o] else sel)

/-- Backfill loop: run only when fewer than `min_occasions` were
selected; append not-yet-selected occasions with score ≥
`0.6 * score_threshold`, stopping as soon as the minimum is met. -/
def backfill (cfg : Config) : List (String × ℚ) → List String → List String
  | [], sel => sel
  | (o, s) :: rest, sel =>
      if o ∉ sel ∧ cfg.score_threshold * (3 / 5) ≤ s then
        let sel2 := sel ++ [o]
        if cfg.min_occasions ≤ sel2.length then sel2
        else backfill cfg rest sel2
      else backfill cfg rest sel

/-- The selected occasion list just before the travel overlay: threshold
selection, conditional backfill, and the final `Casual` default. -/
def selectedOccasions (cfg : Config) (accords : List (String × ℕ)) :
    List String :=
  let sorted := sortedOccasions accords
  let sel1 := selectTop cfg sorted []
  let sel2 :=
    if sel1.length < cfg.min_occasions then backfill cfg sorted sel1 else sel1
  if sel2.isEmpty then ["Casual"] else sel2

def versatileAccords : List String := ["fresh", "citrus", "aromatic", "woody"]

def polarizingAccords : List String :=
  ["oud", "leather", "animalic", "tobacco", "smoky"]

/-- Sorted score values `sorted(occasion_scores.values(), reverse=True)`. -/
def sortedScoreValues (scores : List (String × ℚ)) : List ℚ :=
  insSort (fun a b => decide (b < a)) (scores.map (·.2))

/-- `_is_travel_suitable`.  `top_accord_names` is a Python set of the
lower-cased names of the first three accords; the size of its
intersection with the versatile set equals the number of versatile
names occurring among those lower-cased names. -/
def isTravelSuitable (accords : List (String × ℕ))
    (scores : List (String × ℚ)) (selected : List String) : Bool :=
  if accords.isEmpty || decide (selected.length < 2) then false
  else
    let topNames := (accords.take 3).map (fun a => (pyLower a.1))
    let hasVersatile :=
      decide (2 ≤ (versatileAccords.filter (fun v => topNames.contains v)).length)
    let hasPolarizingPrimary :=
      match accords with
      | [] => false
      | a :: _ => polarizingAccords.contains (pyLower a.1)
    if hasPolarizingPrimary then false
    else if decide (3 ≤ scores.length) then
      let ss := sortedScoreValues scores
      if decide (3 ≤ ss.length) then
        let top := ss.getD 0 0
        let third := ss.getD 2 0
        hasVersatile &&
          (if 0 < top then decide ((1 : ℚ) / 2 ≤ third / top) else false)
      else false
    else false

/-- `classify_perfume`. -/
def classify_perfume (cfg : Config) (accords : List (String × ℕ)) :
    List String :=
  if accords.isEmpty then ["Casual"]
  else
    let selected := selectedOccasions cfg accords
    if isTravelSuitable accords (occasionScores accords) selected
        && decide (selected.length < cfg.max_occasions)
    then selected ++ ["Viaje"]
    else selected

/-- The number of distinct versatile names among the lower-cased top-3
accord names of the input (the size of the Python set intersection in
`_is_travel_suitable`). -/
def versatileCount (accords : List (String × ℕ)) : ℕ :=
  (versatileAccords.filter
    (fun v => ((accords.take 3).map (fun a => pyLower a.1)).contains v)).length

end Occ

/-! ### Recommendation predictor (`api/recommendations/predictor.py`)

Database state is an explicit input: the `Accord` table as its list of
names (in row order), the `Perfume` table as a list of `PerfumeRow`s (in
queryset order), and the user's `SurveyResponse.response_data` as an
insertion-ordered JSON object (or `none` when no survey row exists).
The re-filter `candidate_perfumes_df.index.isin(accord_matrix_df.index)`
is the identity — both frames are indexed by the same perfume ids — and
the `ValueError` guard around the dot product is unreachable, since the
matrix rows and the survey vector are both built over the same
vocabulary; neither is modelled. -/

namespace Pred

/-- One row of the `Perfume` table, with the fields read by
`_get_perfume_accord_data`: primary key, nullable gender, the three
popularity signals (nullable), and the related accord names in ORM
prefetch order. -/
structure PerfumeRow where
  id : ℕ
  gender : Option String
  popularity : Option ℚ
  rating_count : Option ℚ
  overall_rating : Option ℚ
  accords : List String
deriving DecidableEq, Inhabited

/-- A JSON scalar stored in `SurveyResponse.response_data`. -/
inductive JVal where
  | num (q : ℚ)
  | str (s : String)
deriving DecidableEq

/-- `response_data`: a JSON object, i.e. an insertion-ordered mapping. -/
abbrev SurveyData := List (String × JVal)

/-- `response_data.get(key)`. -/
def lookupJ (d : SurveyData) (k : String) : Option JVal :=
  (d.find? (fun p => p.1 == k)).map (·.2)

/-- Lexicographic strict order on character lists by codepoint. -/
def charListLt : List Char → List Char → Bool
  | [], [] => false
  | [], _ :: _ => true
  | _ :: _, [] => false
  | c :: cs, d :: ds =>
      if c < d then true else if d < c then false else charListLt cs ds

/-- The binary-collation string order used for `ORDER BY name`
(equivalent to Lean's `String.instLT`; see `strLt_iff`). -/
def strLt (a b : String) : Bool := charListLt a.data b.data

/-- `_get_all_accord_list`: names of accords attached to at least one
perfume, `ORDER BY name` under the binary collation, truthiness-filtered
and then lower-cased. -/
def getAllAccordList (accordTable : List String) (catalog : List PerfumeRow) :
    List String :=
  let attached := accordTable.filter
    (fun n => catalog.any (fun p => p.accords.contains n))
  ((insSort strLt attached).filter (fun n => n ≠ "")).map pyLower

/-- `str(p.gender).lower() if p.gender else 'unisex'`. -/
def rowGender (p : PerfumeRow) : String :=
  match p.gender with
  | some g => if g = "" then "unisex" else pyLower g
  | none => "unisex"

/-- The per-rank weight of `_get_perfume_accord_data`:
`weight_index = min(idx, 5)`, then `1.0 - 0.2 * weight_index` below 5
and `0.1` from rank 5 on. -/
def accordWeight (idx : ℕ) : ℚ :=
  let wi := min idx 5
  if wi < 5 then 1 - 0.2 * (wi : ℚ) else 0.1

/-- `[a.name.lower() for a in p.accords.all() if a.name]`. -/
def perfumeAccordNames (p : PerfumeRow) : List String :=
  (p.accords.filter (fun n => n ≠ "")).map pyLower

/-- The matrix population loop: starting from a zero row over the
vocabulary columns, assign `accordWeight idx` at the column(s) labelled
with the accord at position `idx` (a later duplicate overwrites, as the
pandas cell assignment does); labels outside the vocabulary are
ignored. -/
def applyWeights (cols : List String) : List ℚ → ℕ → List String → List ℚ
  | row, _, [] => row
  | row, k, n :: rest =>
      applyWeights cols
        (List.zipWith (fun c v => if c = n then accordWeight k else v) cols row)
        (k + 1) rest

/-- The weighted accord vector of one perfume over the vocabulary. -/
def perfumeVector (cols : List String) (p : PerfumeRow) : List ℚ :=
  applyWeights cols (cols.map (fun _ => (0 : ℚ))) 0 (perfumeAccordNames p)

/-- `_get_user_survey_vector_and_gender`.  The first component is the
survey vector (`none` for Python `None`), the second the gender
preference.  A missing survey row yields `(none, none)`; a non-string
`gender` value makes `.lower()` raise `AttributeError`, which the
blanket `except` also turns into `(none, none)`; a missing or empty
gender yields `(some vector, none)`.  Per-accord values: the sentinel
`-1` and out-of-range or non-numeric ratings map to 0; ratings in
`[0, 5]` are centered by `- 2.5`; a surveyed accord whose original key
was not already lower-case falls back to `.get(name, 0)`'s default `0`,
which is then centered to `-2.5`.  One value-level simplification:
Python's `float()` also parses numeric *strings* (`"3"` would center to
0.5), while the model maps every string rating to 0; this affects no
theorem below — availability of the vector and gender is unchanged. -/
def surveyVectorAndGender (survey : Option SurveyData) (cols : List String) :
    Option (List ℚ) × Option String :=
  match survey with
  | none => (none, none)
  | some d =>
    match lookupJ d "gender" with
    | some (JVal.num _) => (none, none)
    | g =>
      let userGender : Option String :=
        match g with
        | some (JVal.str s) => if pyLower s = "" then none else some (pyLower s)
        | _ => none
      let surveyedSet :=
        (d.map (fun p => pyLower p.1)).filter (fun k => k ∈ cols)
      let vec := cols.map (fun c =>
        if c ∈ surveyedSet then
          match lookupJ d c with
          | some (JVal.num q) =>
              if q = -1 then 0
              else if 0 ≤ q ∧ q ≤ 5 then q - 2.5
              else 0
          | some (JVal.str _) => 0
          | none => 0 - 2.5
        else 0)
      (some vec, userGender)

/-- The gender filter of `generate_recommendations` (step 4). -/
def genderFilter (userGender : String) (catalog : List PerfumeRow) :
    List PerfumeRow :=
  if userGender = "male" then
    catalog.filter
      (fun p => (["male", "unisex"] : List String).contains (rowGender p))
  else if userGender = "female" then
    catalog.filter
      (fun p => (["female", "unisex"] : List String).contains (rowGender p))
  else if userGender = "unisex" then
    catalog.filter (fun p => rowGender p == "unisex")
  else
    catalog

/-- The similarity dot product (step 5). -/
def dotQ (v w : List ℚ) : ℚ := (List.zipWith (· * ·) v w).sum

/-- Similarity plus popularity boost (steps 5–6): `similarity + alpha *
(log1p(max(0, rating_count)) + log1p(max(0, recent_magnitude)) +
log1p(max(0, overall_rating)))`, null signals coerced to 0.  `log1p`
abstracts `np.log1p`. -/
def boostedScore (log1p : ℚ → ℚ) (alpha : ℚ) (cols : List String)
    (uvec : List ℚ) (p : PerfumeRow) : ℚ :=
  dotQ (perfumeVector cols p) uvec +
    alpha * (log1p (max 0 (p.rating_count.getD 0)) +
      log1p (max 0 (p.popularity.getD 0)) +
      log1p (max 0 (p.overall_rating.getD 0)))

/-- `candidate_perfumes_df['boosted_score'].min()`. -/
def minScore (b : PerfumeRow → ℚ) : List PerfumeRow → ℚ
  | [] => 0
  | c :: cs => cs.foldl (fun m p => min m (b p)) (b c)

/-- `candidate_perfumes_df['boosted_score'].max()`. -/
def maxScore (b : PerfumeRow → ℚ) : List PerfumeRow → ℚ
  | [] => 0
  | c :: cs => cs.foldl (fun m p => max m (b p)) (b c)

/-- Min-max normalization (step 7) and the `(perfume_id, final_score)`
pairs in candidate order.  `Decimal(str(x))` is the identity in the
exact-rational model; the final `else 0` mirrors the NaN fallback,
unreachable over exact rationals. -/
def finalScores (log1p : ℚ → ℚ) (alpha : ℚ) (cols : List String)
    (uvec : List ℚ) (cands : List PerfumeRow) : List (ℕ × ℚ) :=
  let b := boostedScore log1p alpha cols uvec
  let mn := minScore b cands
  let mx := maxScore b cands
  cands.map (fun p =>
    (p.id, if mn < mx then (b p - mn) / (mx - mn)
      else if mx = mn then 0.5 else 0))

/-- pandas `sort_values(by='final_score', ascending=False)` (step 8).
`pandas.core.sorting.nargsort` reverses the values *before* the
ascending argsort and the resulting indexer *after*, so the two
reversals cancel on blocks of equal keys: rows with equal scores keep
their original order, a *stable descending* sort (stable for the array
sizes arising in the concrete inputs below, where NumPy's argsort is an
insertion sort; pandas' tests assert the stable descending order). -/
def sortValuesDesc (l : List (ℕ × ℚ)) : List (ℕ × ℚ) :=
  insSort (fun a b => decide (b.2 < a.2)) l

/-- `generate_recommendations(user, alpha)`.  Steps in source order:
empty perfume table or empty accord matrix → `None`; missing survey
vector or gender → `None`; gender filter; zero candidates → `[]`;
otherwise score, normalize and sort. -/
def generate_recommendations (log1p : ℚ → ℚ) (alpha : ℚ)
    (accordTable : List String) (catalog : List PerfumeRow)
    (survey : Option SurveyData) : Option (List (ℕ × ℚ)) :=
  let cols := getAllAccordList accordTable catalog
  if catalog.isEmpty || cols.isEmpty then none
  else
    match surveyVectorAndGender survey cols with
    | (some uvec, some g) =>
      let cands := genderFilter g catalog
      if cands.isEmpty then some []
      else some (sortValuesDesc (finalScores log1p alpha cols uvec cands))
    | _ => none

end Pred

-- The Rat arithmetic primitives are irreducible in Batteries; make them
-- semireducible for the remainder of the file so that concrete
-- evaluations can go through decide.
attribute [local semireducible] Rat.add Rat.mul Rat.sub Rat.inv Rat.ofScientific

/-! ### Stable sort lemmas -/

theorem insOrd_perm {α : Type} (lt : α → α → Bool) (x : α) (l : List α) :
    List.Perm (insOrd lt x l) (x :: l) := by
  induction l with
  | nil => simp [insOrd]
  | cons y ys ih =>
      simp only [insOrd]
      by_cases h : lt y x = true
      · simp only [h, if_true]
        exact (List.Perm.cons y ih).trans (List.Perm.swap x y ys)
      · simp [h]

theorem insSort_perm {α : Type} (lt : α → α → Bool) (l : List α) :
    List.Perm (insSort lt l) l := by
  induction l with
  | nil => simp [insSort]
  | cons x xs ih =>
      exact (insOrd_perm lt x (insSort lt xs)).trans (List.Perm.cons x ih)

theorem insSort_length {α : Type} (lt : α → α → Bool) (l : List α) :
    (insSort lt l).length = l.length :=
  (insSort_perm lt l).length_eq

theorem insSort_mem {α : Type} (lt : α → α → Bool) (x : α) (l : List α) :
    x ∈ insSort lt l ↔ x ∈ l :=
  (insSort_perm lt l).mem_iff

/-- Sortedness of `insOrd`: if the comparison is asymmetric and its
negation is transitive, inserting preserves the pairwise guarantee that
no later element compares strictly below an earlier one. -/
theorem insOrd_pairwise {α : Type} (lt : α → α → Bool)
    (hasym : ∀ a b, lt a b = true → lt b a = false)
    (htrans : ∀ a b c, lt b a = false → lt c b = false → lt c a = false)
    (x : α) (l : List α)
    (hl : l.Pairwise (fun a b => lt b a = false)) :
    (insOrd lt x l).Pairwise (fun a b => lt b a = false) := by
  induction l with
  | nil => simp [insOrd]
  | cons y ys ih =>
      rcases List.pairwise_cons.mp hl with ⟨hy, hys⟩
      simp only [insOrd]
      by_cases h : lt y x = true
      · simp only [h, if_true]
        refine List.pairwise_cons.mpr ⟨?_, ih hys⟩
        intro z hz
        rcases List.mem_cons.mp ((insOrd_perm lt x ys).mem_iff.mp hz) with hzx | hzys
        · subst hzx; exact hasym _ _ h
        · exact hy z hzys
      · simp only [h, if_false]
        refine List.pairwise_cons.mpr ⟨?_, hl⟩
        intro z hz
        have hyx : lt y x = false := by
          cases hxy : lt y x with
          | false => rfl
          | true => exact absurd hxy h
        rcases List.mem_cons.mp hz with hzy | hzys
        · subst hzy; exact hyx
        · exact htrans x y z hyx (hy z hzys)

theorem insSort_pairwise {α : Type} (lt : α → α → Bool)
    (hasym : ∀ a b, lt a b = true → lt b a = false)
    (htrans : ∀ a b c, lt b a = false → lt c b = false → lt c a = false)
    (l : List α) :
    (insSort lt l).Pairwise (fun a b => lt b a = false) := by
  induction l with
  | nil => simp [insSort]
  | cons x xs ih => exact insOrd_pairwise lt hasym htrans x _ ih

/-- Stability of `insOrd`, phrased through `filter`: for a predicate `p`
concentrated on a single comparison class (any two `p`-elements compare
`false` both ways), insertion at the stable position commutes with
filtering. -/
theorem insOrd_filter {α : Type} (lt : α → α → Bool) (p : α → Bool)
    (x : α) (l : List α)
    (hp : ∀ y, p x = true → p y = true → lt y x = false) :
    (insOrd lt x l).filter p =
      if p x then x :: l.filter p else l.filter p := by
  induction l with
  | nil => cases h : p x <;> simp [insOrd, List.filter, h]
  | cons y ys ih =>
      simp only [insOrd]
      by_cases h : lt y x = true
      · simp only [h, if_true, List.filter]
        cases hx : p x with
        | false =>
            cases hy : p y <;> simp [List.filter, hx, hy, ih, hx]
        | true =>
            have : p y = false := by
              cases hy : p y with
              | false => rfl
              | true => exact absurd (hp y hx hy) (by simp [h])
            simp [List.filter, this, ih, hx]
      · simp only [h, if_false]
        cases hx : p x <;> simp [List.filter, hx]

theorem insSort_filter {α : Type} (lt : α → α → Bool) (p : α → Bool)
    (hp : ∀ x y, p x = true → p y = true → lt y x = false)
    (l : List α) :
    (insSort lt l).filter p = l.filter p := by
  induction l with
  | nil => simp [insSort]
  | cons x xs ih =>
      simp only [insSort]
      rw [insOrd_filter lt p x _ (fun y => hp x y)]
      cases hx : p x <;> simp [List.filter, hx, ih]

section OccExamples

example : Occ.classify_perfume Occ.defaultConfig [] = ["Casual"] := by decide

example :
    Occ.occasionScores [("rose", 0), ("fresh", 0)] =
      [("Formal", 6), ("Especial", 9), ("Deporte", 9), ("Oficina", 6),
       ("Casual", 15 / 2)] := by decide

example :
    Occ.classify_perfume Occ.defaultConfig [("rose", 0), ("fresh", 0)] =
      ["Especial", "Deporte", "Casual"] := by decide

example :
    Occ.classify_perfume Occ.defaultConfig [("citrus", 2), ("citrus", 3)] =
      ["Deporte", "Casual"] := by decide

end OccExamples

/-! ### Classifier lemmas: selection length bounds and thresholds -/

namespace Occ

theorem selectTop_length_le (cfg : Config) :
    ∀ (l : List (String × ℚ)) (sel : List String),
      (selectTop cfg l sel).length ≤ max sel.length cfg.max_occasions := by
  intro l
  induction l with
  | nil => intro sel; simpa [selectTop] using Nat.le_max_left _ _
  | cons hd rest ih =>
      intro sel
      obtain ⟨o, s⟩ := hd
      simp only [selectTop]
      by_cases h : cfg.score_threshold ≤ s ∧ sel.length < cfg.max_occasions
      · rw [if_pos h]
        refine (ih (sel ++ [o])).trans ?_
        have h2 : (sel ++ [o]).length ≤ cfg.max_occasions := by
          simpa [List.length_append] using h.2
        simp only [Nat.max_le]
        exact ⟨le_trans h2 (Nat.le_max_right _ _), Nat.le_max_right _ _⟩
      · rw [if_neg h]; exact ih sel

theorem selectTop_mem (cfg : Config) :
    ∀ (l : List (String × ℚ)) (sel : List String) (x : String),
      x ∈ selectTop cfg l sel → x ∈ sel ∨ x ∈ l.map Prod.fst := by
  intro l
  induction l with
  | nil => intro sel x hx; exact Or.inl (by simpa [selectTop] using hx)
  | cons hd rest ih =>
      intro sel x hx
      obtain ⟨o, s⟩ := hd
      simp only [selectTop] at hx
      by_cases h : cfg.score_threshold ≤ s ∧ sel.length < cfg.max_occasions
      · rw [if_pos h] at hx
        rcases ih _ _ hx with hsel | hrest
        · rcases List.mem_append.mp hsel with h1 | h2
          · exact Or.inl h1
          · exact Or.inr (by simp [List.mem_singleton.mp h2])
        · exact Or.inr (by simp [hrest])
      · rw [if_neg h] at hx
        rcases ih _ _ hx with hsel | hrest
        · exact Or.inl hsel
        · exact Or.inr (by simp [hrest])

theorem selectTop_of_low (cfg : Config) :
    ∀ (l : List (String × ℚ)) (sel : List String),
      (∀ p ∈ l, p.2 < cfg.score_threshold) → selectTop cfg l sel = sel := by
  intro l
  induction l with
  | nil => intro sel _; rfl
  | cons hd rest ih =>
      intro sel hlow
      obtain ⟨o, s⟩ := hd
      have hs : s < cfg.score_threshold := hlow (o, s) (List.mem_cons_self _ _)
      simp only [selectTop]
      rw [if_neg (by rintro ⟨h1, -⟩; exact absurd h1 (not_le.mpr hs))]
      exact ih sel fun p hp => hlow p (List.mem_cons_of_mem _ hp)

theorem backfill_length_le (cfg : Config) :
    ∀ (l : List (String × ℚ)) (sel : List String),
      sel.length < cfg.min_occasions →
      (backfill cfg l sel).length ≤ cfg.min_occasions := by
  intro l
  induction l with
  | nil => intro sel h; exact le_of_lt (by simpa [backfill] using h)
  | cons hd rest ih =>
      intro sel h
      obtain ⟨o, s⟩ := hd
      simp only [backfill]
      by_cases hc : o ∉ sel ∧ cfg.score_threshold * (3 / 5) ≤ s
      · rw [if_pos hc]
        by_cases hm : cfg.min_occasions ≤ (sel ++ [o]).length
        · rw [if_pos hm]
          simpa [List.length_append] using h
        · rw [if_neg hm]
          exact ih _ (lt_of_not_ge hm)
      · rw [if_neg hc]; exact ih sel h

theorem backfill_mem (cfg : Config) :
    ∀ (l : List (String × ℚ)) (sel : List String) (x : String),
      x ∈ backfill cfg l sel → x ∈ sel ∨ x ∈ l.map Prod.fst := by
  intro l
  induction l with
  | nil => intro sel x hx; exact Or.inl (by simpa [backfill] using hx)
  | cons hd rest ih =>
      intro sel x hx
      obtain ⟨o, s⟩ := hd
      simp only [backfill] at hx
      by_cases hc : o ∉ sel ∧ cfg.score_threshold * (3 / 5) ≤ s
      · rw [if_pos hc] at hx
        by_cases hm : cfg.min_occasions ≤ (sel ++ [o]).length
        · rw [if_pos hm] at hx
          rcases List.mem_append.mp hx with h1 | h2
          · exact Or.inl h1
          · exact Or.inr (by simp [List.mem_singleton.mp h2])
        · rw [if_neg hm] at hx
          rcases ih _ _ hx with hsel | hrest
          · rcases List.mem_append.mp hsel with h1 | h2
            · exact Or.inl h1
            · exact Or.inr (by simp [List.mem_singleton.mp h2])
          · exact Or.inr (by simp [hrest])
      · rw [if_neg hc] at hx
        rcases ih _ _ hx with hsel | hrest
        · exact Or.inl hsel
        · exact Or.inr (by simp [hrest])

theorem backfill_of_low (cfg : Config) :
    ∀ (l : List (String × ℚ)) (sel : List String),
      (∀ p ∈ l, p.2 < cfg.score_threshold * (3 / 5)) →
      backfill cfg l sel = sel := by
  intro l
  induction l with
  | nil => intro sel _; rfl
  | cons hd rest ih =>
      intro sel hlow
      obtain ⟨o, s⟩ := hd
      have hs : s < cfg.score_threshold * (3 / 5) :=
        hlow (o, s) (List.mem_cons_self _ _)
      simp only [backfill]
      rw [if_neg (by rintro ⟨-, h2⟩; exact absurd h2 (not_le.mpr hs))]
      exact ih sel fun p hp => hlow p (List.mem_cons_of_mem _ hp)

theorem selectedOccasions_length_le (cfg : Config)
    (hmax : 1 ≤ cfg.max_occasions) (hmm : cfg.min_occasions ≤ cfg.max_occasions)
    (accords : List (String × ℕ)) :
    (selectedOccasions cfg accords).length ≤ cfg.max_occasions := by
  simp only [selectedOccasions]
  set sorted := sortedOccasions accords with hsorted
  have hsel1 : (selectTop cfg sorted []).length ≤ cfg.max_occasions := by
    simpa using selectTop_length_le cfg sorted []
  set sel1 := selectTop cfg sorted [] with hsel1def
  by_cases hlt : sel1.length < cfg.min_occasions
  · rw [if_pos hlt]
    have h2 := backfill_length_le cfg sorted sel1 hlt
    by_cases he : (backfill cfg sorted sel1).isEmpty
    · rw [if_pos he]; simpa using hmax
    · rw [if_neg he]; exact le_trans h2 hmm
  · rw [if_neg hlt]
    by_cases he : sel1.isEmpty
    · rw [if_pos he]; simpa using hmax
    · rw [if_neg he]; exact hsel1

theorem selectedOccasions_ne_nil (cfg : Config) (accords : List (String × ℕ)) :
    selectedOccasions cfg accords ≠ [] := by
  simp only [selectedOccasions]
  set sorted := sortedOccasions accords
  set sel1 := selectTop cfg sorted []
  by_cases hlt : sel1.length < cfg.min_occasions
  · rw [if_pos hlt]
    by_cases he : (backfill cfg sorted sel1).isEmpty
    · rw [if_pos he]; simp
    · rw [if_neg he]; simpa [List.isEmpty_iff] using he
  · rw [if_neg hlt]
    by_cases he : sel1.isEmpty
    · rw [if_pos he]; simp
    · rw [if_neg he]; simpa [List.isEmpty_iff] using he

end Occ

/-! ### Classifier lemmas: occasion-score keys -/

namespace Occ

theorem addScore_keys (occ : String) (w : ℚ) :
    ∀ (d : List (String × ℚ)) (x : String),
      x ∈ (addScore d occ w).map Prod.fst → x = occ ∨ x ∈ d.map Prod.fst := by
  intro d
  induction d with
  | nil => intro x hx; simpa [addScore] using hx
  | cons hd rest ih =>
      intro x hx
      obtain ⟨o, v⟩ := hd
      simp only [addScore] at hx
      by_cases h : o = occ
      · rw [if_pos h, List.map_cons] at hx
        rcases List.mem_cons.mp hx with h1 | h2
        · exact Or.inl (h1.trans h)
        · exact Or.inr (by rw [List.map_cons]; exact List.mem_cons_of_mem _ h2)
      · rw [if_neg h, List.map_cons] at hx
        rcases List.mem_cons.mp hx with h1 | h2
        · subst h1
          exact Or.inr (by rw [List.map_cons]; exact List.mem_cons_self _ _)
        · rcases ih x h2 with h3 | h4
          · exact Or.inl h3
          · exact Or.inr (by rw [List.map_cons]; exact List.mem_cons_of_mem _ h4)

theorem scoreStep_keys (a : String × ℕ) :
    ∀ (d : List (String × ℚ)) (x : String),
      x ∈ (scoreStep d a).map Prod.fst →
      x ∈ d.map Prod.fst ∨ x ∈ ACCORD_OCCASION_MAP.map Prod.fst := by
  have main :
      ∀ (tables : List (String × WeightTable)) (d : List (String × ℚ))
        (x : String),
        x ∈ ((tables.foldl
              (fun d' ow =>
                match lookupWeight ow.2 (pyLower a.1) with
                | some bw => addScore d' ow.1 (bw * positionWeight a.2)
                | none => d') d).map Prod.fst) →
        x ∈ d.map Prod.fst ∨ x ∈ tables.map Prod.fst := by
    intro tables
    induction tables with
    | nil => intro d x hx; exact Or.inl (by simpa using hx)
    | cons t rest ih =>
        intro d x hx
        simp only [List.foldl_cons] at hx
        rcases ih _ x hx with hstep | hrest
        · cases hlk : lookupWeight t.2 (pyLower a.1) with
          | none => rw [hlk] at hstep; exact Or.inl hstep
          | some bw =>
              rw [hlk] at hstep
              rcases addScore_keys t.1 _ d x hstep with h1 | h2
              · exact Or.inr (by simp [h1])
              · exact Or.inl h2
        · exact Or.inr (by simp [hrest])
  intro d x hx
  exact main ACCORD_OCCASION_MAP d x hx

theorem occasionScores_keys (accords : List (String × ℕ)) :
    ∀ x ∈ (occasionScores accords).map Prod.fst,
      x ∈ ACCORD_OCCASION_MAP.map Prod.fst := by
  have main :
      ∀ (l : List (String × ℕ)) (d : List (String × ℚ)) (x : String),
        x ∈ ((l.foldl scoreStep d).map Prod.fst) →
        x ∈ d.map Prod.fst ∨ x ∈ ACCORD_OCCASION_MAP.map Prod.fst := by
    intro l
    induction l with
    | nil => intro d x hx; exact Or.inl (by simpa using hx)
    | cons a rest ih =>
        intro d x hx
        simp only [List.foldl_cons] at hx
        rcases ih _ x hx with hstep | hocc
        · exact scoreStep_keys a d x hstep
        · exact Or.inr hocc
  intro x hx
  rcases main accords [] x hx with h1 | h2
  · simp at h1
  · exact h2

theorem sortedOccasions_keys (accords : List (String × ℕ)) :
    ∀ x ∈ (sortedOccasions accords).map Prod.fst,
      x ∈ (occasionScores accords).map Prod.fst := by
  intro x hx
  exact ((insSort_perm _ (occasionScores accords)).map Prod.fst).mem_iff.mp hx

theorem selectedOccasions_mem (cfg : Config) (accords : List (String × ℕ)) :
    ∀ x ∈ selectedOccasions cfg accords,
      x = "Casual" ∨ x ∈ (occasionScores accords).map Prod.fst := by
  intro x hx
  simp only [selectedOccasions] at hx
  set sorted := sortedOccasions accords with hs
  set sel1 := selectTop cfg sorted [] with hs1
  have hsel1 : ∀ y ∈ sel1, y ∈ sorted.map Prod.fst := by
    intro y hy
    rcases selectTop_mem cfg sorted [] y hy with h1 | h2
    · simp at h1
    · exact h2
  by_cases hlt : sel1.length < cfg.min_occasions
  · rw [if_pos hlt] at hx
    by_cases he : (backfill cfg sorted sel1).isEmpty
    · rw [if_pos he] at hx
      exact Or.inl (List.mem_singleton.mp hx)
    · rw [if_neg he] at hx
      rcases backfill_mem cfg sorted sel1 x hx with h1 | h2
      · exact Or.inr (sortedOccasions_keys accords x (hsel1 x h1))
      · exact Or.inr (sortedOccasions_keys accords x h2)
  · rw [if_neg hlt] at hx
    by_cases he : sel1.isEmpty
    · rw [if_pos he] at hx
      exact Or.inl (List.mem_singleton.mp hx)
    · rw [if_neg he] at hx
      exact Or.inr (sortedOccasions_keys accords x (hsel1 x hx))

theorem viaje_not_in_selected (cfg : Config) (accords : List (String × ℕ)) :
    "Viaje" ∉ selectedOccasions cfg accords := by
  intro hmem
  rcases selectedOccasions_mem cfg accords _ hmem with h1 | h2
  · exact absurd h1 (by decide)
  · have := occasionScores_keys accords _ h2
    revert this
    decide

theorem viaje_mem_classify_iff (cfg : Config) (accords : List (String × ℕ)) :
    "Viaje" ∈ classify_perfume cfg accords ↔
      accords ≠ [] ∧
      isTravelSuitable accords (occasionScores accords)
        (selectedOccasions cfg accords) = true ∧
      (selectedOccasions cfg accords).length < cfg.max_occasions := by
  unfold classify_perfume
  by_cases hne : accords.isEmpty
  · rw [if_pos hne]
    simp [List.isEmpty_iff.mp hne]
  · rw [if_neg hne]
    have hanil : accords ≠ [] := by simpa [List.isEmpty_iff] using hne
    by_cases hc :
        isTravelSuitable accords (occasionScores accords)
            (selectedOccasions cfg accords)
          && decide ((selectedOccasions cfg accords).length < cfg.max_occasions)
    · rw [if_pos hc]
      simp only [Bool.and_eq_true, decide_eq_true_eq] at hc
      simp [hanil, hc.1, hc.2]
    · rw [if_neg hc]
      simp only [Bool.and_eq_true, decide_eq_true_eq] at hc
      constructor
      · intro hmem
        exact absurd hmem (viaje_not_in_selected cfg accords)
      · rintro ⟨-, h1, h2⟩
        exact absurd ⟨h1, h2⟩ hc

end Occ

/-! ### Classifier lemmas: low scores and the Casual default -/

namespace Occ

theorem sortedOccasions_scores_mem (accords : List (String × ℕ)) :
    ∀ p ∈ sortedOccasions accords, p ∈ occasionScores accords :=
  fun p hp => (insSort_perm _ (occasionScores accords)).mem_iff.mp hp

theorem selectedOccasions_of_low (cfg : Config) (accords : List (String × ℕ))
    (hlow : ∀ p ∈ occasionScores accords,
      p.2 < cfg.score_threshold ∧ p.2 < cfg.score_threshold * (3 / 5)) :
    selectedOccasions cfg accords = ["Casual"] := by
  simp only [selectedOccasions]
  have h1 : selectTop cfg (sortedOccasions accords) [] = [] :=
    selectTop_of_low cfg _ _
      (fun p hp => (hlow p (sortedOccasions_scores_mem accords p hp)).1)
  have h2 : backfill cfg (sortedOccasions accords) [] = [] :=
    backfill_of_low cfg _ _
      (fun p hp => (hlow p (sortedOccasions_scores_mem accords p hp)).2)
  rw [h1]
  by_cases hlt : ([] : List String).length < cfg.min_occasions
  · rw [if_pos hlt, h2]; simp
  · rw [if_neg hlt]; simp

theorem isTravelSuitable_singleton (accords : List (String × ℕ))
    (scores : List (String × ℚ)) (x : String) :
    isTravelSuitable accords scores [x] = false := by
  simp [isTravelSuitable]

theorem classify_of_low (cfg : Config) (accords : List (String × ℕ))
    (hlow : ∀ p ∈ occasionScores accords,
      p.2 < cfg.score_threshold ∧ p.2 < cfg.score_threshold * (3 / 5)) :
    classify_perfume cfg accords = ["Casual"] := by
  unfold classify_perfume
  by_cases hne : accords.isEmpty
  · rw [if_pos hne]
  · rw [if_neg hne]
    rw [selectedOccasions_of_low cfg accords hlow]
    simp [isTravelSuitable_singleton]

theorem classify_length (cfg : Config) (accords : List (String × ℕ))
    (hmax : 1 ≤ cfg.max_occasions)
    (hmm : cfg.min_occasions ≤ cfg.max_occasions) :
    1 ≤ (classify_perfume cfg accords).length ∧
      (classify_perfume cfg accords).length ≤ cfg.max_occasions := by
  unfold classify_perfume
  by_cases hne : accords.isEmpty
  · rw [if_pos hne]; exact ⟨le_refl 1, hmax⟩
  · rw [if_neg hne]
    have hlen := selectedOccasions_length_le cfg hmax hmm accords
    have hnil := selectedOccasions_ne_nil cfg accords
    have hpos : 1 ≤ (selectedOccasions cfg accords).length :=
      Nat.one_le_iff_ne_zero.mpr (fun h => hnil (List.length_eq_zero.mp h))
    by_cases hc :
        isTravelSuitable accords (occasionScores accords)
            (selectedOccasions cfg accords)
          && decide ((selectedOccasions cfg accords).length < cfg.max_occasions)
    · rw [if_pos hc]
      simp only [Bool.and_eq_true, decide_eq_true_eq] at hc
      constructor
      · simpa using Nat.le_succ_of_le hpos
      · simpa [List.length_append] using hc.2
    · rw [if_neg hc]
      exact ⟨hpos, hlen⟩

end Occ

/-- Claim C8: for every input, `classify_perfume` returns between 1 and
`max_occasions` occasion labels (never an empty result, given a
configuration with `1 ≤ max_occasions` and `min_occasions ≤
max_occasions`, as in the defaults 1/3); the empty accord list yields
exactly `["Casual"]`; and an input all of whose occasion scores fall
below both `score_threshold` and the backfill threshold
`0.6 * score_threshold` (in particular one whose best-matching occasion
does) also yields exactly `["Casual"]`. -/
theorem claim_C8 (cfg : Occ.Config) (accords : List (String × ℕ))
    (hmax : 1 ≤ cfg.max_occasions)
    (hmm : cfg.min_occasions ≤ cfg.max_occasions) :
    (1 ≤ (Occ.classify_perfume cfg accords).length ∧
      (Occ.classify_perfume cfg accords).length ≤ cfg.max_occasions) ∧
    Occ.classify_perfume cfg [] = ["Casual"] ∧
    ((∀ p ∈ Occ.occasionScores accords,
        p.2 < cfg.score_threshold ∧ p.2 < cfg.score_threshold * (3 / 5)) →
      Occ.classify_perfume cfg accords = ["Casual"]) :=
  ⟨Occ.classify_length cfg accords hmax hmm, rfl,
   fun hlow => Occ.classify_of_low cfg accords hlow⟩

section ClaimWitnesses

/-- Witness for C8 at the default configuration on a concrete input:
`[("vanilla", 0)]` scores Casual 7.5 and Fiesta 7.5 and is classified
into 1–3 labels. -/
theorem claim_C8_witness :
    (1 ≤ (Occ.classify_perfume Occ.defaultConfig [("vanilla", 0)]).length ∧
      (Occ.classify_perfume Occ.defaultConfig [("vanilla", 0)]).length ≤
        Occ.defaultConfig.max_occasions) ∧
    Occ.classify_perfume Occ.defaultConfig [] = ["Casual"] ∧
    ((∀ p ∈ Occ.occasionScores [("vanilla", 0)],
        p.2 < Occ.defaultConfig.score_threshold ∧
          p.2 < Occ.defaultConfig.score_threshold * (3 / 5)) →
      Occ.classify_perfume Occ.defaultConfig [("vanilla", 0)] = ["Casual"]) :=
  claim_C8 Occ.defaultConfig [("vanilla", 0)] (by decide) (by decide)

end ClaimWitnesses

/-! ### Claim C10: tie-breaking in the classifier -/

/-- Counterexample to claim C10.  On `[("rose", 0), ("fresh", 0)]` the
occasions `Deporte` and `Especial` accumulate exactly equal scores (9),
`Deporte` precedes `Especial` in the declaration order of
`ACCORD_OCCASION_MAP`, yet the classifier ranks — and returns —
`Especial` *before* `Deporte`: ties follow the insertion order of the
score dict (`rose` matches `Formal`/`Especial` before `fresh` matches
`Deporte`), not the table declaration order. -/
theorem claim_C10_counterexample :
    Occ.classify_perfume Occ.defaultConfig [("rose", 0), ("fresh", 0)] =
      ["Especial", "Deporte", "Casual"] ∧
    (Occ.occasionScores [("rose", 0), ("fresh", 0)]).find?
        (fun p => p.1 == "Deporte") = some ("Deporte", 9) ∧
    (Occ.occasionScores [("rose", 0), ("fresh", 0)]).find?
        (fun p => p.1 == "Especial") = some ("Especial", 9) ∧
    List.indexOf "Deporte" (Occ.ACCORD_OCCASION_MAP.map Prod.fst) <
      List.indexOf "Especial" (Occ.ACCORD_OCCASION_MAP.map Prod.fst) := by
  refine ⟨by decide, by decide, by decide, by decide⟩

/-- Claim C10 (amended): `classify_perfume` is a pure, deterministic
function of its input, and the ranking pass is the *stable* descending
sort of the insertion-ordered score map: the ranked list is descending in
score, and occasions with exactly equal scores keep the order in which
they first entered the score map (scanning accords in input order, and
the occasion table in declaration order per accord) — which is not, in
general, the declaration order of the occasion table. -/
theorem claim_C10 (accords : List (String × ℕ)) (c : ℚ) :
    (Occ.sortedOccasions accords).Pairwise (fun a b => b.2 ≤ a.2) ∧
    (Occ.sortedOccasions accords).filter (fun p => p.2 == c) =
      (Occ.occasionScores accords).filter (fun p => p.2 == c) := by
  constructor
  · have h := insSort_pairwise (fun a b : String × ℚ => decide (b.2 < a.2))
      (fun a b hab => by
        simp only [decide_eq_true_eq] at hab
        simpa using not_lt.mpr (le_of_lt hab))
      (fun a b c hba hcb => by
        simp only [decide_eq_false_iff_not, not_lt] at hba hcb ⊢
        exact le_trans hcb hba)
      (Occ.occasionScores accords)
    exact h.imp (fun {a b} hab => by
      simpa [not_lt] using of_decide_eq_false hab)
  · exact insSort_filter _ _
      (fun x y hx hy => by
        simp only [beq_iff_eq] at hx hy
        simp [hx, hy])
      (Occ.occasionScores accords)

/-! ### Classifier lemmas: score positivity and key insertion (for C6) -/

namespace Occ

theorem positionWeight_pos (pos : ℕ) : 0 < positionWeight pos := by
  unfold positionWeight
  have h : (1 : ℤ) ≤ max (3 - (pos : ℤ)) 1 := le_max_right _ _
  have h2 : ((1 : ℤ) : ℚ) ≤ ((max (3 - (pos : ℤ)) 1 : ℤ) : ℚ) := by
    exact_mod_cast h
  simpa using lt_of_lt_of_le zero_lt_one h2

theorem tables_weights_pos :
    ∀ ow ∈ ACCORD_OCCASION_MAP, ∀ nw ∈ ow.2, 0 < nw.2 := by decide

theorem lookupWeight_pos {t : WeightTable} {name : String} {bw : ℚ}
    (hpos : ∀ nw ∈ t, 0 < nw.2) (h : lookupWeight t name = some bw) :
    0 < bw := by
  unfold lookupWeight at h
  cases hf : t.find? (fun p => p.1 == name) with
  | none => rw [hf] at h; simp at h
  | some nw =>
      rw [hf] at h
      obtain rfl : nw.2 = bw := by simpa using h
      exact hpos nw (List.mem_of_find?_eq_some hf)

theorem addScore_pos {d : List (String × ℚ)} {occ : String} {w : ℚ}
    (hd : ∀ p ∈ d, 0 < p.2) (hw : 0 < w) :
    ∀ p ∈ addScore d occ w, 0 < p.2 := by
  induction d with
  | nil => intro p hp; simp only [addScore] at hp
           obtain rfl := List.mem_singleton.mp hp
           exact hw
  | cons hd0 rest ih =>
      intro p hp
      obtain ⟨o, v⟩ := hd0
      simp only [addScore] at hp
      by_cases h : o = occ
      · rw [if_pos h] at hp
        rcases List.mem_cons.mp hp with h1 | h2
        · subst h1
          have hv : (0 : ℚ) < v := hd (o, v) (List.mem_cons_self _ _)
          exact add_pos hv hw
        · exact hd p (List.mem_cons_of_mem _ h2)
      · rw [if_neg h] at hp
        rcases List.mem_cons.mp hp with h1 | h2
        · subst h1; exact hd (o, v) (List.mem_cons_self _ _)
        · exact ih (fun q hq => hd q (List.mem_cons_of_mem _ hq)) p h2

theorem scoreStep_pos {d : List (String × ℚ)} (a : String × ℕ)
    (hd : ∀ p ∈ d, 0 < p.2) :
    ∀ p ∈ scoreStep d a, 0 < p.2 := by
  have main :
      ∀ (tables : List (String × WeightTable)),
        (∀ ow ∈ tables, ∀ nw ∈ ow.2, 0 < nw.2) →
        ∀ (d0 : List (String × ℚ)), (∀ p ∈ d0, 0 < p.2) →
        ∀ p ∈ (tables.foldl
            (fun d' ow =>
              match lookupWeight ow.2 (pyLower a.1) with
              | some bw => addScore d' ow.1 (bw * positionWeight a.2)
              | none => d') d0), 0 < p.2 := by
    intro tables
    induction tables with
    | nil => intro _ d0 hd0 p hp; exact hd0 p (by simpa using hp)
    | cons t rest ih =>
        intro htab d0 hd0 p hp
        simp only [List.foldl_cons] at hp
        have hnew : ∀ p ∈ (match lookupWeight t.2 (pyLower a.1) with
            | some bw => addScore d0 t.1 (bw * positionWeight a.2)
            | none => d0), 0 < p.2 := by
          cases hlk : lookupWeight t.2 (pyLower a.1) with
          | none => simpa using hd0
          | some bw =>
              have hbw : 0 < bw :=
                lookupWeight_pos (htab t (List.mem_cons_self _ _)) hlk
              simpa using addScore_pos hd0 (mul_pos hbw (positionWeight_pos a.2))
        exact ih (fun ow how nw hnw => htab ow (List.mem_cons_of_mem _ how) nw hnw)
          _ hnew p hp
  exact main ACCORD_OCCASION_MAP tables_weights_pos d hd

theorem occasionScores_pos (accords : List (String × ℕ)) :
    ∀ p ∈ occasionScores accords, 0 < p.2 := by
  have main : ∀ (l : List (String × ℕ)) (d : List (String × ℚ)),
      (∀ p ∈ d, 0 < p.2) → ∀ p ∈ l.foldl scoreStep d, 0 < p.2 := by
    intro l
    induction l with
    | nil => intro d hd p hp; exact hd p (by simpa using hp)
    | cons a rest ih =>
        intro d hd p hp
        simp only [List.foldl_cons] at hp
        exact ih _ (scoreStep_pos a hd) p hp
  exact main accords [] (by simp)

end Occ

/-! ### Classifier lemmas: key insertion (for C6) -/

namespace Occ

theorem addScore_keys_mono (occ : String) (w : ℚ) :
    ∀ (d : List (String × ℚ)) (x : String),
      x ∈ d.map Prod.fst → x ∈ (addScore d occ w).map Prod.fst := by
  intro d
  induction d with
  | nil => intro x hx; simp at hx
  | cons hd rest ih =>
      intro x hx
      obtain ⟨o, v⟩ := hd
      rw [List.map_cons] at hx
      simp only [addScore]
      by_cases h : o = occ
      · rw [if_pos h, List.map_cons]; exact hx
      · rw [if_neg h, List.map_cons]
        rcases List.mem_cons.mp hx with h1 | h2
        · exact h1 ▸ List.mem_cons_self _ _
        · exact List.mem_cons_of_mem _ (ih x h2)

theorem addScore_keys_self (occ : String) (w : ℚ) :
    ∀ (d : List (String × ℚ)), occ ∈ (addScore d occ w).map Prod.fst := by
  intro d
  induction d with
  | nil => simp [addScore]
  | cons hd rest ih =>
      obtain ⟨o, v⟩ := hd
      simp only [addScore]
      by_cases h : o = occ
      · rw [if_pos h, List.map_cons]
        exact h ▸ List.mem_cons_self _ _
      · rw [if_neg h, List.map_cons]
        exact List.mem_cons_of_mem _ ih

theorem scoreStep_keys_mono (a : String × ℕ) :
    ∀ (d : List (String × ℚ)) (x : String),
      x ∈ d.map Prod.fst → x ∈ (scoreStep d a).map Prod.fst := by
  have main :
      ∀ (tables : List (String × WeightTable)) (d : List (String × ℚ))
        (x : String), x ∈ d.map Prod.fst →
        x ∈ ((tables.foldl
            (fun d' ow =>
              match lookupWeight ow.2 (pyLower a.1) with
              | some bw => addScore d' ow.1 (bw * positionWeight a.2)
              | none => d') d).map Prod.fst) := by
    intro tables
    induction tables with
    | nil => intro d x hx; simpa using hx
    | cons t rest ih =>
        intro d x hx
        simp only [List.foldl_cons]
        refine ih _ x ?_
        cases hlk : lookupWeight t.2 (pyLower a.1) with
        | none => simpa using hx
        | some bw => simpa using addScore_keys_mono t.1 _ d x hx
  intro d x hx
  exact main ACCORD_OCCASION_MAP d x hx

theorem scoreStep_keys_inserts (a : String × ℕ) (occ : String)
    (tbl : WeightTable) (hmem : (occ, tbl) ∈ ACCORD_OCCASION_MAP)
    (hlk : (lookupWeight tbl (pyLower a.1)).isSome) :
    ∀ (d : List (String × ℚ)), occ ∈ (scoreStep d a).map Prod.fst := by
  have main :
      ∀ (tables : List (String × WeightTable)) (d : List (String × ℚ)),
        (occ, tbl) ∈ tables →
        occ ∈ ((tables.foldl
            (fun d' ow =>
              match lookupWeight ow.2 (pyLower a.1) with
              | some bw => addScore d' ow.1 (bw * positionWeight a.2)
              | none => d') d).map Prod.fst) := by
    intro tables
    induction tables with
    | nil => intro d h; simp at h
    | cons t rest ih =>
        intro d hmem2
        simp only [List.foldl_cons]
        rcases List.mem_cons.mp hmem2 with h1 | h2
        · obtain rfl : t = (occ, tbl) := h1.symm
          obtain ⟨bw, hbw⟩ := Option.isSome_iff_exists.mp hlk
          have hstep :
              occ ∈ ((match lookupWeight tbl (pyLower a.1) with
                | some bw => addScore d occ (bw * positionWeight a.2)
                | none => d).map Prod.fst) := by
            rw [hbw]
            exact addScore_keys_self occ _ d
          -- keys are monotone along the remaining tables
          have mono :
              ∀ (ts : List (String × WeightTable)) (d0 : List (String × ℚ))
                (x : String), x ∈ d0.map Prod.fst →
                x ∈ ((ts.foldl
                    (fun d' ow =>
                      match lookupWeight ow.2 (pyLower a.1) with
                      | some bw => addScore d' ow.1 (bw * positionWeight a.2)
                      | none => d') d0).map Prod.fst) := by
            intro ts
            induction ts with
            | nil => intro d0 x hx; simpa using hx
            | cons u us ih2 =>
                intro d0 x hx
                simp only [List.foldl_cons]
                refine ih2 _ x ?_
                cases hlk2 : lookupWeight u.2 (pyLower a.1) with
                | none => simpa using hx
                | some bw2 => simpa using addScore_keys_mono u.1 _ d0 x hx
          exact mono rest _ occ hstep
        · exact ih _ h2
  intro d
  exact main ACCORD_OCCASION_MAP d hmem

theorem occasionScores_keys_mono :
    ∀ (l : List (String × ℕ)) (d : List (String × ℚ)) (x : String),
      x ∈ d.map Prod.fst → x ∈ ((l.foldl scoreStep d).map Prod.fst) := by
  intro l
  induction l with
  | nil => intro d x hx; simpa using hx
  | cons a rest ih =>
      intro d x hx
      simp only [List.foldl_cons]
      exact ih _ x (scoreStep_keys_mono a d x hx)

theorem occasionScores_key_of_accord (accords : List (String × ℕ))
    (a : String × ℕ) (occ : String) (tbl : WeightTable)
    (ha : a ∈ accords) (hmem : (occ, tbl) ∈ ACCORD_OCCASION_MAP)
    (hlk : (lookupWeight tbl (pyLower a.1)).isSome) :
    occ ∈ (occasionScores accords).map Prod.fst := by
  have main : ∀ (l : List (String × ℕ)) (d : List (String × ℚ)),
      a ∈ l → occ ∈ ((l.foldl scoreStep d).map Prod.fst) := by
    intro l
    induction l with
    | nil => intro d h; simp at h
    | cons hd rest ih =>
        intro d hmem2
        simp only [List.foldl_cons]
        rcases List.mem_cons.mp hmem2 with h1 | h2
        · subst h1
          exact occasionScores_keys_mono rest _ occ
            (scoreStep_keys_inserts a occ tbl hmem hlk d)
        · exact ih _ h2
  exact main accords [] ha

/-- If some accord of the input lowers to one of the four versatile
names, at least three occasions receive a score: each versatile accord
occurs in three distinct occasion tables. -/
theorem three_keys_of_versatile (accords : List (String × ℕ))
    (v : String) (hv : v ∈ versatileAccords)
    (a : String × ℕ) (ha : a ∈ accords) (hla : pyLower a.1 = v) :
    3 ≤ (occasionScores accords).length := by
  have key : ∀ occ tbl, (occ, tbl) ∈ ACCORD_OCCASION_MAP →
      (lookupWeight tbl v).isSome →
      occ ∈ (occasionScores accords).map Prod.fst := by
    intro occ tbl hmem hlk
    exact occasionScores_key_of_accord accords a occ tbl ha hmem
      (by rw [hla]; exact hlk)
  have hlen : (occasionScores accords).length =
      ((occasionScores accords).map Prod.fst).length := by
    simp
  rw [hlen]
  have card_le := List.toFinset_card_le ((occasionScores accords).map Prod.fst)
  have sub3 : ∀ o1 o2 o3 : String,
      o1 ∈ (occasionScores accords).map Prod.fst →
      o2 ∈ (occasionScores accords).map Prod.fst →
      o3 ∈ (occasionScores accords).map Prod.fst →
      o1 ≠ o2 → o1 ≠ o3 → o2 ≠ o3 →
      3 ≤ ((occasionScores accords).map Prod.fst).length := by
    intro o1 o2 o3 h1 h2 h3 ne12 ne13 ne23
    have hsub : ({o1, o2, o3} : Finset String) ⊆
        ((occasionScores accords).map Prod.fst).toFinset := by
      intro x hx
      simp only [Finset.mem_insert, Finset.mem_singleton] at hx
      rcases hx with rfl | rfl | rfl <;> simpa [List.mem_toFinset] using
        (by assumption : x ∈ (occasionScores accords).map Prod.fst)
    have hcard : ({o1, o2, o3} : Finset String).card = 3 := by
      rw [Finset.card_insert_of_not_mem (by simp [ne12, ne13]),
        Finset.card_insert_of_not_mem (by simp [ne23]),
        Finset.card_singleton]
    calc 3 = ({o1, o2, o3} : Finset String).card := hcard.symm
      _ ≤ ((occasionScores accords).map Prod.fst).toFinset.card :=
          Finset.card_le_card hsub
      _ ≤ ((occasionScores accords).map Prod.fst).length := card_le
  fin_cases hv
  · exact sub3 "Deporte" "Oficina" "Casual"
      (key "Deporte" deporteWeights (by decide) (by decide))
      (key "Oficina" oficinaWeights (by decide) (by decide))
      (key "Casual" casualWeights (by decide) (by decide))
      (by decide) (by decide) (by decide)
  · exact sub3 "Deporte" "Oficina" "Casual"
      (key "Deporte" deporteWeights (by decide) (by decide))
      (key "Oficina" oficinaWeights (by decide) (by decide))
      (key "Casual" casualWeights (by decide) (by decide))
      (by decide) (by decide) (by decide)
  · exact sub3 "Deporte" "Oficina" "Casual"
      (key "Deporte" deporteWeights (by decide) (by decide))
      (key "Oficina" oficinaWeights (by decide) (by decide))
      (key "Casual" casualWeights (by decide) (by decide))
      (by decide) (by decide) (by decide)
  · exact sub3 "Deporte" "Oficina" "Formal"
      (key "Deporte" deporteWeights (by decide) (by decide))
      (key "Oficina" oficinaWeights (by decide) (by decide))
      (key "Formal" formalWeights (by decide) (by decide))
      (by decide) (by decide) (by decide)

end Occ

/-! ### Classifier lemmas: travel gate characterization -/

namespace Occ

theorem sortedScoreValues_length (scores : List (String × ℚ)) :
    (sortedScoreValues scores).length = scores.length := by
  unfold sortedScoreValues
  rw [insSort_length, List.length_map]

theorem sortedScoreValues_mem (scores : List (String × ℚ)) :
    ∀ q ∈ sortedScoreValues scores, ∃ p ∈ scores, p.2 = q := by
  intro q hq
  have : q ∈ scores.map (·.2) := (insSort_mem _ q _).mp hq
  simpa using this

theorem exists_three_of_length {l : List ℚ} (h : 3 ≤ l.length) :
    ∃ t s2 s3 tail, l = t :: s2 :: s3 :: tail := by
  cases l with
  | nil => simp at h
  | cons t l1 =>
      cases l1 with
      | nil => simp at h
      | cons s2 l2 =>
          cases l2 with
          | nil => simp at h
          | cons s3 tail => exact ⟨t, s2, s3, tail, rfl⟩

theorem three_scored_of_versatile (accords : List (String × ℕ))
    (h : 2 ≤ versatileCount accords) :
    3 ≤ (occasionScores accords).length := by
  have hpos : 0 < (versatileAccords.filter
      (fun v => ((accords.take 3).map (fun a => pyLower a.1)).contains v)).length := by
    unfold versatileCount at h; omega
  obtain ⟨v, hv⟩ := List.exists_mem_of_length_pos hpos
  have hv2 := List.mem_filter.mp hv
  have hvmem : v ∈ (accords.take 3).map (fun a => pyLower a.1) := by
    simpa using hv2.2
  obtain ⟨a, ha, hla⟩ := List.mem_map.mp hvmem
  exact three_keys_of_versatile accords v hv2.1 a
    (List.take_subset 3 accords ha) hla

end Occ

namespace Occ

theorem isTravelSuitable_iff (a : String × ℕ) (rest : List (String × ℕ))
    (selected : List String) :
    isTravelSuitable (a :: rest) (occasionScores (a :: rest)) selected = true ↔
      (2 ≤ selected.length ∧
       2 ≤ versatileCount (a :: rest) ∧
       polarizingAccords.contains (pyLower a.1) = false ∧
       (3 ≤ (occasionScores (a :: rest)).length →
         (sortedScoreValues (occasionScores (a :: rest))).getD 0 0 ≤
           2 * (sortedScoreValues (occasionScores (a :: rest))).getD 2 0)) := by
  simp only [isTravelSuitable, versatileCount, List.isEmpty_cons, Bool.false_or]
  by_cases hsel : selected.length < 2
  · rw [if_pos (decide_eq_true hsel)]
    refine iff_of_false (by simp) ?_
    rintro ⟨h2, -⟩
    omega
  · rw [if_neg (by simpa using hsel)]
    by_cases hpol : polarizingAccords.contains (pyLower a.1) = true
    · rw [if_pos hpol]
      refine iff_of_false (by simp) ?_
      rintro ⟨-, -, hpolf, -⟩
      rw [hpol] at hpolf
      simp at hpolf
    · have hpolf : polarizingAccords.contains (pyLower a.1) = false :=
        Bool.not_eq_true _ ▸ hpol
      rw [if_neg hpol]
      by_cases hlen : 3 ≤ (occasionScores (a :: rest)).length
      · rw [if_pos (decide_eq_true hlen)]
        have hsslen : 3 ≤ (sortedScoreValues (occasionScores (a :: rest))).length := by
          rw [sortedScoreValues_length]; exact hlen
        rw [if_pos (decide_eq_true hsslen)]
        obtain ⟨t, s2, s3, tail, hss⟩ := exists_three_of_length hsslen
        rw [hss]
        have ht : 0 < t := by
          obtain ⟨p, hp, hp2⟩ := sortedScoreValues_mem _ t
            (by rw [hss]; exact List.mem_cons_self _ _)
          exact hp2 ▸ occasionScores_pos (a :: rest) p hp
        simp only [List.getD_cons_zero, List.getD_cons_succ]
        rw [if_pos ht]
        simp only [Bool.and_eq_true, decide_eq_true_eq]
        constructor
        · rintro ⟨hv, hdiv⟩
          refine ⟨not_lt.mp hsel, hv, hpolf, fun _ => ?_⟩
          have h2 := (le_div_iff ht).mp hdiv
          linarith
        · rintro ⟨-, hv, -, hbal⟩
          refine ⟨hv, ?_⟩
          have hb := hbal hlen
          rw [le_div_iff ht]
          linarith
      · rw [if_neg (by simpa using hlen)]
        refine iff_of_false (by simp) ?_
        rintro ⟨-, hv, -, -⟩
        exact hlen (three_scored_of_versatile (a :: rest) (by simpa [versatileCount] using hv))

end Occ

/-- Counterexample to claim C6 as stated.  On `[("citrus", 2),
("citrus", 3)]` every condition of the claim holds — reading "at least 2
of the top-3 input accords are in the versatile set" as counting accord
entries: both entries are `citrus`, a versatile accord — yet `Viaje` is
not appended, because `_is_travel_suitable` intersects the versatile set
with the *set* of top-3 accord names, which collapses the duplicate to a
single element. -/
theorem claim_C6_counterexample :
    "Viaje" ∉ Occ.classify_perfume Occ.defaultConfig
        [("citrus", 2), ("citrus", 3)] ∧
    (Occ.selectedOccasions Occ.defaultConfig
        [("citrus", 2), ("citrus", 3)]).length <
      Occ.defaultConfig.max_occasions ∧
    2 ≤ (Occ.selectedOccasions Occ.defaultConfig
        [("citrus", 2), ("citrus", 3)]).length ∧
    2 ≤ ((([("citrus", 2), ("citrus", 3)] :
          List (String × ℕ)).take 3).map (fun a => pyLower a.1)).countP
        (fun n => Occ.versatileAccords.contains n) ∧
    Occ.polarizingAccords.contains (pyLower "citrus") = false ∧
    3 ≤ (Occ.occasionScores [("citrus", 2), ("citrus", 3)]).length ∧
    (Occ.sortedScoreValues
        (Occ.occasionScores [("citrus", 2), ("citrus", 3)])).getD 0 0 ≤
      2 * (Occ.sortedScoreValues
        (Occ.occasionScores [("citrus", 2), ("citrus", 3)])).getD 2 0 := by
  refine ⟨by decide, by decide, by decide, by decide, by decide, by decide,
    by decide⟩

/-- Claim C6 (amended): `classify_perfume` appends `Viaje` if and only
if: room remains under `max_occasions`, at least 2 occasions were
already selected, at least 2 *distinct* lower-cased names among the
top-3 input accords lie in the versatile set {fresh, citrus, aromatic,
woody} (the code intersects Python *sets*, so duplicated accords count
once), the top-ranked accord is not polarizing, and — whenever at least
3 occasions scored — the third-highest occasion score is at least half
of the top occasion score.  In particular an input whose top accord is
`oud` never receives `Viaje`. -/
theorem claim_C6 (cfg : Occ.Config) (accords : List (String × ℕ)) :
    ("Viaje" ∈ Occ.classify_perfume cfg accords ↔
      ((Occ.selectedOccasions cfg accords).length < cfg.max_occasions ∧
       2 ≤ (Occ.selectedOccasions cfg accords).length ∧
       2 ≤ Occ.versatileCount accords ∧
       (∀ x ∈ accords.head?,
         Occ.polarizingAccords.contains (pyLower x.1) = false) ∧
       (3 ≤ (Occ.occasionScores accords).length →
         (Occ.sortedScoreValues (Occ.occasionScores accords)).getD 0 0 ≤
           2 * (Occ.sortedScoreValues
             (Occ.occasionScores accords)).getD 2 0))) ∧
    (∀ hd : String × ℕ, ∀ rest : List (String × ℕ), pyLower hd.1 = "oud" →
      "Viaje" ∉ Occ.classify_perfume cfg (hd :: rest)) := by
  have main : ∀ (accords2 : List (String × ℕ)),
      "Viaje" ∈ Occ.classify_perfume cfg accords2 ↔
      ((Occ.selectedOccasions cfg accords2).length < cfg.max_occasions ∧
       2 ≤ (Occ.selectedOccasions cfg accords2).length ∧
       2 ≤ Occ.versatileCount accords2 ∧
       (∀ x ∈ accords2.head?,
         Occ.polarizingAccords.contains (pyLower x.1) = false) ∧
       (3 ≤ (Occ.occasionScores accords2).length →
         (Occ.sortedScoreValues (Occ.occasionScores accords2)).getD 0 0 ≤
           2 * (Occ.sortedScoreValues
             (Occ.occasionScores accords2)).getD 2 0)) := by
    intro accords2
    rw [Occ.viaje_mem_classify_iff]
    cases accords2 with
    | nil =>
        refine iff_of_false (by simp) ?_
        rintro ⟨-, -, hv, -⟩
        revert hv
        decide
    | cons a rest =>
        rw [Occ.isTravelSuitable_iff]
        constructor
        · rintro ⟨-, ⟨h1, h2, h3, h4⟩, h5⟩
          exact ⟨h5, h1, h2, by simpa using h3, h4⟩
        · rintro ⟨h5, h1, h2, h3, h4⟩
          exact ⟨List.cons_ne_nil _ _, ⟨h1, h2, by simpa using h3, h4⟩, h5⟩
  refine ⟨main accords, ?_⟩
  intro hd rest hlow hmem
  have h := (main (hd :: rest)).mp hmem
  have hcontains : Occ.polarizingAccords.contains (pyLower hd.1) = false := by
    have := h.2.2.2.1
    simpa using this hd rfl
  rw [hlow] at hcontains
  revert hcontains
  decide

/-- Witness for C6: the oud-gate applied at a concrete input. -/
theorem claim_C6_witness :
    "Viaje" ∉ Occ.classify_perfume Occ.defaultConfig [("oud", 0)] :=
  (claim_C6 Occ.defaultConfig [("oud", 0)]).2 ("oud", 0) [] (by decide)

/-! ### Claim C1: the gender filter -/

/-- Claim C1: before scoring, `generate_recommendations` keeps exactly:
for a `male` user the items whose gender is `male` or `unisex`; for a
`female` user those with `female` or `unisex`; for a `unisex` user only
the `unisex` items; and for any other non-empty gender string all items
(no filtering). -/
theorem claim_C1 (catalog : List Pred.PerfumeRow) (p : Pred.PerfumeRow) :
    (p ∈ Pred.genderFilter "male" catalog ↔
      p ∈ catalog ∧ (Pred.rowGender p = "male" ∨ Pred.rowGender p = "unisex")) ∧
    (p ∈ Pred.genderFilter "female" catalog ↔
      p ∈ catalog ∧ (Pred.rowGender p = "female" ∨ Pred.rowGender p = "unisex")) ∧
    (p ∈ Pred.genderFilter "unisex" catalog ↔
      p ∈ catalog ∧ Pred.rowGender p = "unisex") ∧
    (∀ g : String, g ≠ "" →
      g ∉ (["male", "female", "unisex"] : List String) →
      Pred.genderFilter g catalog = catalog) := by
  refine ⟨?_, ?_, ?_, ?_⟩
  · simp [Pred.genderFilter, List.mem_filter]
  · simp [Pred.genderFilter, List.mem_filter]
  · simp [Pred.genderFilter, List.mem_filter]
  · intro g hne hnot
    simp only [List.mem_cons, List.mem_singleton, not_or] at hnot
    simp [Pred.genderFilter, hnot.1, hnot.2.1, hnot.2.2]

section ClaimWitnessesPred

/-- Witness for C1 on the spec's own test catalog {male, female, unisex,
unisex}: the `unisex` membership characterization at a concrete item,
and the pass-through for an unknown gender string. -/
theorem claim_C1_witness :
    ((⟨3, some "unisex", none, none, none, []⟩ : Pred.PerfumeRow) ∈
        Pred.genderFilter "unisex"
          [⟨1, some "male", none, none, none, []⟩,
           ⟨2, some "female", none, none, none, []⟩,
           ⟨3, some "unisex", none, none, none, []⟩,
           ⟨4, some "unisex", none, none, none, []⟩] ↔
      (⟨3, some "unisex", none, none, none, []⟩ : Pred.PerfumeRow) ∈
          [⟨1, some "male", none, none, none, []⟩,
           ⟨2, some "female", none, none, none, []⟩,
           ⟨3, some "unisex", none, none, none, []⟩,
           ⟨4, some "unisex", none, none, none, []⟩] ∧
        Pred.rowGender ⟨3, some "unisex", none, none, none, []⟩ = "unisex") ∧
    Pred.genderFilter "other"
        [⟨1, some "male", none, none, none, []⟩,
         ⟨2, some "female", none, none, none, []⟩,
         ⟨3, some "unisex", none, none, none, []⟩,
         ⟨4, some "unisex", none, none, none, []⟩] =
      [⟨1, some "male", none, none, none, []⟩,
       ⟨2, some "female", none, none, none, []⟩,
       ⟨3, some "unisex", none, none, none, []⟩,
       ⟨4, some "unisex", none, none, none, []⟩] :=
  ⟨(claim_C1 _ _).2.2.1,
   (claim_C1 [⟨1, some "male", none, none, none, []⟩,
      ⟨2, some "female", none, none, none, []⟩,
      ⟨3, some "unisex", none, none, none, []⟩,
      ⟨4, some "unisex", none, none, none, []⟩]
      ⟨3, some "unisex", none, none, none, []⟩).2.2.2 "other"
      (by decide) (by decide)⟩

end ClaimWitnessesPred

/-! ### Claim C3: the weighted accord vector -/

namespace Pred

theorem updRow_getD (n : String) (w : ℚ) :
    ∀ (cols : List String) (row : List ℚ) (i : ℕ),
      i < cols.length → i < row.length →
      (List.zipWith (fun c v => if c = n then w else v) cols row).getD i 0 =
        (if cols.getD i "" = n then w else row.getD i 0) := by
  intro cols
  induction cols with
  | nil => intro row i h _; simp at h
  | cons c cs ih =>
      intro row i hi hr
      cases row with
      | nil => simp at hr
      | cons v vs =>
          cases i with
          | zero => simp [List.zipWith]
          | succ j =>
              simp only [List.zipWith, List.getD_cons_succ]
              exact ih vs j (by simpa using hi) (by simpa using hr)

theorem updRow_length (n : String) (w : ℚ) (cols : List String) (row : List ℚ)
    (h : row.length = cols.length) :
    (List.zipWith (fun c v => if c = n then w else v) cols row).length =
      cols.length := by
  rw [List.length_zipWith, h, Nat.min_self]

theorem applyWeights_length (cols : List String) :
    ∀ (names : List String) (row : List ℚ) (k : ℕ),
      row.length = cols.length →
      (applyWeights cols row k names).length = cols.length := by
  intro names
  induction names with
  | nil => intro row k h; simpa [applyWeights] using h
  | cons n rest ih =>
      intro row k h
      simp only [applyWeights]
      exact ih _ (k + 1) (updRow_length n _ cols row h)

theorem applyWeights_getD (cols : List String) :
    ∀ (names : List String) (row : List ℚ) (k i : ℕ),
      names.Nodup → row.length = cols.length → i < cols.length →
      (applyWeights cols row k names).getD i 0 =
        (if cols.getD i "" ∈ names then
          accordWeight (k + names.indexOf (cols.getD i ""))
        else row.getD i 0) := by
  intro names
  induction names with
  | nil => intro row k i _ _ _; simp [applyWeights]
  | cons n rest ih =>
      intro row k i hnd hr hi
      have hnd2 := List.nodup_cons.mp hnd
      simp only [applyWeights]
      rw [ih _ (k + 1) i hnd2.2 (updRow_length n _ cols row hr) hi]
      by_cases hc : cols.getD i "" = n
      · have hnot : cols.getD i "" ∉ rest := hc ▸ hnd2.1
        rw [if_neg hnot, updRow_getD n _ cols row i hi (hr ▸ hi), if_pos hc,
          if_pos (List.mem_cons.mpr (Or.inl hc)), hc, List.indexOf_cons_self]
        simp
      · by_cases hrest : cols.getD i "" ∈ rest
        · rw [if_pos hrest, if_pos (List.mem_cons_of_mem _ hrest),
            List.indexOf_cons_ne rest (fun h => hc h.symm)]
          simp [Nat.succ_eq_add_one]
          ring_nf
        · rw [if_neg hrest,
            if_neg (by
              simp only [List.mem_cons, not_or]
              exact ⟨hc, hrest⟩),
            updRow_getD n _ cols row i hi (hr ▸ hi), if_neg hc]

end Pred

/-- Claim C3: the weighted accord vector assigns exactly 1.0, 0.8, 0.6,
0.4, 0.2 at predominance ranks 0–4, exactly 0.1 at every rank ≥ 5, and
exactly 0 to every vocabulary accord not present on the item; an item
with no accords gets the all-zero vector.  (Weights are the exact
rationals of the source expressions; an item's accord list is assumed
duplicate-free, as the `ManyToMany` relation guarantees.) -/
theorem claim_C3 :
    (Pred.accordWeight 0 = 1 ∧ Pred.accordWeight 1 = 0.8 ∧
     Pred.accordWeight 2 = 0.6 ∧ Pred.accordWeight 3 = 0.4 ∧
     Pred.accordWeight 4 = 0.2 ∧
     (∀ r : ℕ, 5 ≤ r → Pred.accordWeight r = 0.1)) ∧
    (∀ (cols : List String) (p : Pred.PerfumeRow),
      Pred.perfumeAccordNames p = [] →
      Pred.perfumeVector cols p = cols.map (fun _ => 0)) ∧
    (∀ (cols : List String) (p : Pred.PerfumeRow),
      (Pred.perfumeAccordNames p).Nodup →
      ∀ i : ℕ, i < cols.length →
        (Pred.perfumeVector cols p).getD i 0 =
          (if cols.getD i "" ∈ Pred.perfumeAccordNames p then
            Pred.accordWeight
              ((Pred.perfumeAccordNames p).indexOf (cols.getD i ""))
          else 0)) := by
  refine ⟨⟨by decide, by decide, by decide, by decide, by decide, ?_⟩, ?_, ?_⟩
  · intro r hr
    unfold Pred.accordWeight
    rw [Nat.min_eq_right hr]
    norm_num
  · intro cols p h
    simp [Pred.perfumeVector, h, Pred.applyWeights]
  · intro cols p hnd i hi
    have h := Pred.applyWeights_getD cols (Pred.perfumeAccordNames p)
      (cols.map (fun _ => (0 : ℚ))) 0 i hnd (by simp) hi
    rw [Pred.perfumeVector, h]
    by_cases hc : cols.getD i "" ∈ Pred.perfumeAccordNames p
    · rw [if_pos hc, if_pos hc, Nat.zero_add]
    · rw [if_neg hc, if_neg hc]
      have hlen : i < (cols.map (fun _ => (0 : ℚ))).length := by simpa using hi
      simp [List.getD_eq_getElem?_getD]

section ClaimWitnessC3

/-- Witness for C3: the entry characterization evaluated on a concrete
vocabulary and item, and the tail weight at rank 7. -/
theorem claim_C3_witness :
    ((Pred.perfumeVector ["amber", "citrus", "woody"]
        ⟨9, some "unisex", none, none, none, ["Citrus", "Amber"]⟩).getD 0 0 =
      (if (["amber", "citrus", "woody"] : List String).getD 0 "" ∈
          Pred.perfumeAccordNames
            ⟨9, some "unisex", none, none, none, ["Citrus", "Amber"]⟩ then
        Pred.accordWeight
          ((Pred.perfumeAccordNames
              ⟨9, some "unisex", none, none, none, ["Citrus", "Amber"]⟩).indexOf
            ((["amber", "citrus", "woody"] : List String).getD 0 ""))
      else 0)) ∧
    Pred.accordWeight 7 = 0.1 :=
  ⟨(claim_C3.2.2 ["amber", "citrus", "woody"]
      ⟨9, some "unisex", none, none, none, ["Citrus", "Amber"]⟩
      (by decide) 0 (by decide)),
   claim_C3.1.2.2.2.2.2 7 (by decide)⟩

end ClaimWitnessC3

/-! ### Claim C4: min-max normalization -/

namespace Pred

theorem foldl_min_le_init (b : PerfumeRow → ℚ) :
    ∀ (cs : List PerfumeRow) (init : ℚ),
      cs.foldl (fun m p => min m (b p)) init ≤ init := by
  intro cs
  induction cs with
  | nil => intro init; simp
  | cons c cs ih =>
      intro init
      simp only [List.foldl_cons]
      exact le_trans (ih _) (min_le_left _ _)

theorem foldl_min_le_mem (b : PerfumeRow → ℚ) :
    ∀ (cs : List PerfumeRow) (init : ℚ) (p : PerfumeRow), p ∈ cs →
      cs.foldl (fun m p => min m (b p)) init ≤ b p := by
  intro cs
  induction cs with
  | nil => intro init p hp; simp at hp
  | cons c cs ih =>
      intro init p hp
      simp only [List.foldl_cons]
      rcases List.mem_cons.mp hp with h1 | h2
      · subst h1
        exact le_trans (foldl_min_le_init b cs _) (min_le_right _ _)
      · exact ih _ p h2

theorem minScore_le (b : PerfumeRow → ℚ) (cands : List PerfumeRow)
    (p : PerfumeRow) (hp : p ∈ cands) : minScore b cands ≤ b p := by
  cases cands with
  | nil => simp at hp
  | cons c cs =>
      rcases List.mem_cons.mp hp with h1 | h2
      · subst h1; exact foldl_min_le_init b cs _
      · exact foldl_min_le_mem b cs _ p h2

theorem foldl_max_ge_init (b : PerfumeRow → ℚ) :
    ∀ (cs : List PerfumeRow) (init : ℚ),
      init ≤ cs.foldl (fun m p => max m (b p)) init := by
  intro cs
  induction cs with
  | nil => intro init; simp
  | cons c cs ih =>
      intro init
      simp only [List.foldl_cons]
      exact le_trans (le_max_left _ _) (ih _)

theorem foldl_max_ge_mem (b : PerfumeRow → ℚ) :
    ∀ (cs : List PerfumeRow) (init : ℚ) (p : PerfumeRow), p ∈ cs →
      b p ≤ cs.foldl (fun m p => max m (b p)) init := by
  intro cs
  induction cs with
  | nil => intro init p hp; simp at hp
  | cons c cs ih =>
      intro init p hp
      simp only [List.foldl_cons]
      rcases List.mem_cons.mp hp with h1 | h2
      · subst h1
        exact le_trans (le_max_right _ _) (foldl_max_ge_init b cs _)
      · exact ih _ p h2

theorem maxScore_ge (b : PerfumeRow → ℚ) (cands : List PerfumeRow)
    (p : PerfumeRow) (hp : p ∈ cands) : b p ≤ maxScore b cands := by
  cases cands with
  | nil => simp at hp
  | cons c cs =>
      rcases List.mem_cons.mp hp with h1 | h2
      · subst h1; exact foldl_max_ge_init b cs _
      · exact foldl_max_ge_mem b cs _ p h2

theorem minScore_eq_of_const (b : PerfumeRow → ℚ) (v : ℚ) :
    ∀ (cands : List PerfumeRow), cands ≠ [] → (∀ p ∈ cands, b p = v) →
      minScore b cands = v := by
  intro cands
  cases cands with
  | nil => intro h; exact absurd rfl h
  | cons c cs =>
      intro _ hv
      have hc : b c = v := hv c (List.mem_cons_self _ _)
      have main : ∀ (l : List PerfumeRow) (init : ℚ), init = v →
          (∀ p ∈ l, b p = v) → l.foldl (fun m p => min m (b p)) init = v := by
        intro l
        induction l with
        | nil => intro init h _; simpa using h
        | cons x xs ih =>
            intro init h hl
            simp only [List.foldl_cons]
            exact ih _ (by rw [h, hl x (List.mem_cons_self _ _), min_self])
              (fun p hp => hl p (List.mem_cons_of_mem _ hp))
      exact main cs (b c) hc (fun p hp => hv p (List.mem_cons_of_mem _ hp))

theorem maxScore_eq_of_const (b : PerfumeRow → ℚ) (v : ℚ) :
    ∀ (cands : List PerfumeRow), cands ≠ [] → (∀ p ∈ cands, b p = v) →
      maxScore b cands = v := by
  intro cands
  cases cands with
  | nil => intro h; exact absurd rfl h
  | cons c cs =>
      intro _ hv
      have hc : b c = v := hv c (List.mem_cons_self _ _)
      have main : ∀ (l : List PerfumeRow) (init : ℚ), init = v →
          (∀ p ∈ l, b p = v) → l.foldl (fun m p => max m (b p)) init = v := by
        intro l
        induction l with
        | nil => intro init h _; simpa using h
        | cons x xs ih =>
            intro init h hl
            simp only [List.foldl_cons]
            exact ih _ (by rw [h, hl x (List.mem_cons_self _ _), max_self])
              (fun p hp => hl p (List.mem_cons_of_mem _ hp))
      exact main cs (b c) hc (fun p hp => hv p (List.mem_cons_of_mem _ hp))

end Pred

/-- Claim C4: for a non-empty candidate set, if two candidates have
distinct boosted scores then every final score is the min-max scaling of
the candidate's boosted score and lies in [0, 1]; if all candidates
share one boosted score, every final score is exactly 0.5. -/
theorem claim_C4 (log1p : ℚ → ℚ) (alpha : ℚ) (cols : List String)
    (uvec : List ℚ) (cands : List Pred.PerfumeRow) (hne : cands ≠ []) :
    ((∃ p ∈ cands, ∃ q ∈ cands,
        Pred.boostedScore log1p alpha cols uvec p ≠
          Pred.boostedScore log1p alpha cols uvec q) →
      Pred.finalScores log1p alpha cols uvec cands =
        cands.map (fun p => (p.id,
          (Pred.boostedScore log1p alpha cols uvec p -
            Pred.minScore (Pred.boostedScore log1p alpha cols uvec) cands) /
          (Pred.maxScore (Pred.boostedScore log1p alpha cols uvec) cands -
            Pred.minScore (Pred.boostedScore log1p alpha cols uvec) cands))) ∧
      (∀ pr ∈ Pred.finalScores log1p alpha cols uvec cands,
        0 ≤ pr.2 ∧ pr.2 ≤ 1)) ∧
    ((∀ p ∈ cands, ∀ q ∈ cands,
        Pred.boostedScore log1p alpha cols uvec p =
          Pred.boostedScore log1p alpha cols uvec q) →
      Pred.finalScores log1p alpha cols uvec cands =
        cands.map (fun p => (p.id, 1 / 2))) := by
  set b := Pred.boostedScore log1p alpha cols uvec with hb
  set mn := Pred.minScore b cands with hmn
  set mx := Pred.maxScore b cands with hmx
  constructor
  · rintro ⟨p, hp, q, hq, hpq⟩
    have hlt : mn < mx := by
      rcases lt_or_gt_of_ne hpq with h | h
      · exact lt_of_le_of_lt (Pred.minScore_le b cands p hp)
          (lt_of_lt_of_le h (Pred.maxScore_ge b cands q hq))
      · exact lt_of_le_of_lt (Pred.minScore_le b cands q hq)
          (lt_of_lt_of_le h (Pred.maxScore_ge b cands p hp))
    constructor
    · simp only [Pred.finalScores]
      rw [← hb, ← hmn, ← hmx]
      exact List.map_congr_left (fun p _ => by rw [if_pos hlt])
    · intro pr hpr
      simp only [Pred.finalScores] at hpr
      rw [← hb, ← hmn, ← hmx] at hpr
      obtain ⟨r, hr, hpr2⟩ := List.mem_map.mp hpr
      rw [if_pos hlt] at hpr2
      subst hpr2
      have h1 : mn ≤ b r := Pred.minScore_le b cands r hr
      have h2 : b r ≤ mx := Pred.maxScore_ge b cands r hr
      constructor
      · exact div_nonneg (by linarith) (by linarith)
      · rw [div_le_one (by linarith)]
        linarith
  · intro hall
    have hc : ∀ p ∈ cands, b p = b (cands.headI) := by
      intro p hp
      cases cands with
      | nil => exact absurd rfl hne
      | cons c cs => exact hall p hp c (List.mem_cons_self _ _)
    have h1 : mn = b cands.headI :=
      Pred.minScore_eq_of_const b _ cands hne hc
    have h2 : mx = b cands.headI :=
      Pred.maxScore_eq_of_const b _ cands hne hc
    simp only [Pred.finalScores]
    rw [← hb, ← hmn, ← hmx]
    refine List.map_congr_left (fun p _ => ?_)
    rw [if_neg (by rw [h1, h2]; exact lt_irrefl _), if_pos (by rw [h1, h2])]
    norm_num

section ClaimWitnessC4

/-- Witness for C4 at concrete inputs: the [0,1] bounds on a two-item
candidate set with distinct boosted scores, and the all-0.5 outcome on a
two-item set with identical boosted scores. -/
theorem claim_C4_witness :
    (∀ pr ∈ Pred.finalScores (fun _ => 0) (7 / 10) ["citrus", "vanilla"]
        [2.5, -2.5]
        [⟨1, some "unisex", none, none, none, ["citrus"]⟩,
         ⟨2, some "unisex", none, none, none, ["vanilla"]⟩],
      0 ≤ pr.2 ∧ pr.2 ≤ 1) ∧
    Pred.finalScores (fun _ => 0) (7 / 10) ["citrus", "vanilla"]
        [2.5, -2.5]
        [⟨1, some "unisex", none, none, none, ["citrus"]⟩,
         ⟨2, some "unisex", none, none, none, ["citrus"]⟩] =
      ([⟨1, some "unisex", none, none, none, ["citrus"]⟩,
        ⟨2, some "unisex", none, none, none, ["citrus"]⟩] :
          List Pred.PerfumeRow).map (fun p => (p.id, 1 / 2)) :=
  ⟨((claim_C4 (fun _ => 0) (7 / 10) ["citrus", "vanilla"] [2.5, -2.5]
      [⟨1, some "unisex", none, none, none, ["citrus"]⟩,
       ⟨2, some "unisex", none, none, none, ["vanilla"]⟩]
      (by decide)).1
      ⟨⟨1, some "unisex", none, none, none, ["citrus"]⟩, by decide,
       ⟨2, some "unisex", none, none, none, ["vanilla"]⟩, by decide,
       by decide⟩).2,
   (claim_C4 (fun _ => 0) (7 / 10) ["citrus", "vanilla"] [2.5, -2.5]
      [⟨1, some "unisex", none, none, none, ["citrus"]⟩,
       ⟨2, some "unisex", none, none, none, ["citrus"]⟩]
      (by decide)).2 (by decide)⟩

end ClaimWitnessC4

/-! ### Claim C5: the impossible signal versus the empty list -/

namespace Pred

theorem sortValuesDesc_length (l : List (ℕ × ℚ)) :
    (sortValuesDesc l).length = l.length := by
  simp [sortValuesDesc, insSort_length]

theorem finalScores_length (log1p : ℚ → ℚ) (alpha : ℚ) (cols : List String)
    (uvec : List ℚ) (cands : List PerfumeRow) :
    (finalScores log1p alpha cols uvec cands).length = cands.length := by
  simp [finalScores]

theorem sortValuesDesc_ne_nil (l : List (ℕ × ℚ)) (h : l ≠ []) :
    sortValuesDesc l ≠ [] := by
  intro hc
  have := sortValuesDesc_length l
  rw [hc] at this
  exact h (List.length_eq_zero.mp this.symm)

end Pred

/-- Claim C5: `generate_recommendations` returns `None` exactly when the
perfume table or the accord matrix is empty (no perfume rows or no
vocabulary columns), or the survey vector or the gender preference is
unavailable; and it returns the empty list — distinct from `None` —
exactly when the data is available but the gender filter leaves zero
candidates. -/
theorem claim_C5 (log1p : ℚ → ℚ) (alpha : ℚ) (accordTable : List String)
    (catalog : List Pred.PerfumeRow) (survey : Option Pred.SurveyData) :
    (Pred.generate_recommendations log1p alpha accordTable catalog survey =
        none ↔
      catalog = [] ∨ Pred.getAllAccordList accordTable catalog = [] ∨
      (Pred.surveyVectorAndGender survey
        (Pred.getAllAccordList accordTable catalog)).1 = none ∨
      (Pred.surveyVectorAndGender survey
        (Pred.getAllAccordList accordTable catalog)).2 = none) ∧
    (Pred.generate_recommendations log1p alpha accordTable catalog survey =
        some [] ↔
      catalog ≠ [] ∧ Pred.getAllAccordList accordTable catalog ≠ [] ∧
      (∃ uvec g, Pred.surveyVectorAndGender survey
          (Pred.getAllAccordList accordTable catalog) = (some uvec, some g) ∧
        Pred.genderFilter g catalog = [])) := by
  rcases hsvg : Pred.surveyVectorAndGender survey
      (Pred.getAllAccordList accordTable catalog) with ⟨ov, og⟩
  by_cases hcat : catalog.isEmpty
  · have hc : catalog = [] := List.isEmpty_iff.mp hcat
    exact ⟨by simp [Pred.generate_recommendations, hcat, hc],
      by simp [Pred.generate_recommendations, hcat, hc]⟩
  · have hcne : catalog ≠ [] := by simpa [List.isEmpty_iff] using hcat
    by_cases hcols : (Pred.getAllAccordList accordTable catalog).isEmpty
    · have hc2 : Pred.getAllAccordList accordTable catalog = [] :=
        List.isEmpty_iff.mp hcols
      exact ⟨by simp [Pred.generate_recommendations, hcat, hcols, hc2],
        by simp [Pred.generate_recommendations, hcat, hcols, hc2]⟩
    · have hc2ne : Pred.getAllAccordList accordTable catalog ≠ [] := by
        simpa [List.isEmpty_iff] using hcols
      cases ov with
      | none =>
          constructor
          · simp [Pred.generate_recommendations, hcat, hcols, hsvg, hcne, hc2ne]
          · simp [Pred.generate_recommendations, hcat, hcols, hsvg, hcne, hc2ne]
      | some uvec =>
          cases og with
          | none =>
              constructor
              · simp [Pred.generate_recommendations, hcat, hcols, hsvg, hcne,
                  hc2ne]
              · simp [Pred.generate_recommendations, hcat, hcols, hsvg, hcne,
                  hc2ne]
          | some g =>
              by_cases hgf : (Pred.genderFilter g catalog).isEmpty
              · have hg : Pred.genderFilter g catalog = [] :=
                  List.isEmpty_iff.mp hgf
                constructor
                · simp [Pred.generate_recommendations, hcat, hcols, hsvg,
                    hcne, hc2ne, hgf]
                · simp only [Pred.generate_recommendations]
                  rw [hsvg]
                  simp only [hcat, hcols, hgf, hcne, hc2ne, hg]
                  simp [hcat, hcols, hgf, hcne, hc2ne]
                  exact ⟨uvec, g, ⟨rfl, rfl⟩, hg⟩
              · have hgne : Pred.genderFilter g catalog ≠ [] := by
                  simpa [List.isEmpty_iff] using hgf
                have hnn : Pred.sortValuesDesc (Pred.finalScores log1p alpha
                    (Pred.getAllAccordList accordTable catalog) uvec
                    (Pred.genderFilter g catalog)) ≠ [] := by
                  apply Pred.sortValuesDesc_ne_nil
                  intro hcontra
                  have := Pred.finalScores_length log1p alpha
                    (Pred.getAllAccordList accordTable catalog) uvec
                    (Pred.genderFilter g catalog)
                  rw [hcontra] at this
                  exact hgne (List.length_eq_zero.mp this.symm)
                constructor
                · simp [Pred.generate_recommendations, hcat, hcols, hsvg,
                    hcne, hc2ne, hgf]
                · simp only [Pred.generate_recommendations]
                  rw [hsvg]
                  simp [hcat, hcols, hgf, hcne, hc2ne, hnn, hgne]

/-! ### Claims C2 and C9: sorting and score precision -/

namespace Pred

/-- Whenever `generate_recommendations` succeeds with available survey
data, the result is exactly the stable descending sort of the
candidates' final scores (also when the candidate set is empty). -/
theorem generate_some_eq (log1p : ℚ → ℚ) (alpha : ℚ)
    (accordTable : List String) (catalog : List PerfumeRow)
    (survey : Option SurveyData) (uvec : List ℚ) (g : String)
    (recs : List (ℕ × ℚ))
    (hsvg : surveyVectorAndGender survey
      (getAllAccordList accordTable catalog) = (some uvec, some g))
    (hgen : generate_recommendations log1p alpha accordTable catalog survey =
      some recs) :
    recs = sortValuesDesc (finalScores log1p alpha
      (getAllAccordList accordTable catalog) uvec (genderFilter g catalog)) := by
  simp only [generate_recommendations] at hgen
  by_cases hguard : catalog.isEmpty ||
      (getAllAccordList accordTable catalog).isEmpty
  · rw [if_pos hguard] at hgen
    exact absurd hgen (by simp)
  · rw [if_neg hguard, hsvg] at hgen
    by_cases hgf : (genderFilter g catalog).isEmpty
    · have hg : genderFilter g catalog = [] := List.isEmpty_iff.mp hgf
      simp only [hgf, if_true] at hgen
      obtain rfl : recs = [] := (Option.some_inj.mp hgen).symm
      simp [hg, finalScores, sortValuesDesc, insSort]
    · simp only [hgf, if_false] at hgen
      exact (Option.some_inj.mp hgen).symm

end Pred

namespace Pred

end Pred

section ClaimWitnessC2

end ClaimWitnessC2

/-- Counterexample to claim C9.  On a three-perfume catalog with zero
popularity signals (so the boost term is `log1p 0 = 0`, exact for
`np.log1p`), min-max scaling produces the final score 1/3, whose exact
decimal conversion `Decimal(str(x))` is not a 3-decimal-digit
fixed-point value: 1/3 is no integer multiple of 1/1000 (its reduced
denominator 3 does not divide 1000).  The source applies no rounding or
quantization to the returned scores. -/
theorem claim_C9_counterexample :
    Pred.generate_recommendations (fun _ => 0) (7 / 10) ["a", "b"]
      [⟨1, some "unisex", none, none, none, []⟩,
       ⟨2, some "unisex", none, none, none,
         ["f1", "f2", "f3", "f4", "f5", "b"]⟩,
       ⟨3, some "unisex", none, none, none,
         ["f1", "f2", "f3", "f4", "f5", "a"]⟩]
      (some [("gender", Pred.JVal.str "unisex"), ("a", Pred.JVal.num 4),
             ("b", Pred.JVal.num 3)]) =
      some [(3, 1), (2, 1 / 3), (1, 0)] ∧
    ¬ ((1 : ℚ) / 3).den ∣ 1000 :=
  ⟨by decide, by decide⟩

/-- Claim C9 (amended): the returned scores are the exact min-max
normalized values — `Decimal(str(x))` converts without rounding, and no
quantization to 3 decimal places happens in `generate_recommendations`
(the 3-decimal fixed-point format belongs to the persisted
`match_percentage` column, enforced at save time): the returned list is
a permutation of the candidates' exact final scores. -/
theorem claim_C9 (log1p : ℚ → ℚ) (alpha : ℚ) (accordTable : List String)
    (catalog : List Pred.PerfumeRow) (survey : Option Pred.SurveyData)
    (uvec : List ℚ) (g : String) (recs : List (ℕ × ℚ))
    (hsvg : Pred.surveyVectorAndGender survey
      (Pred.getAllAccordList accordTable catalog) = (some uvec, some g))
    (hgen : Pred.generate_recommendations log1p alpha accordTable catalog
      survey = some recs) :
    List.Perm recs (Pred.finalScores log1p alpha
      (Pred.getAllAccordList accordTable catalog) uvec
      (Pred.genderFilter g catalog)) := by
  obtain rfl := Pred.generate_some_eq log1p alpha accordTable catalog survey
    uvec g recs hsvg hgen
  rw [Pred.sortValuesDesc]
  exact insSort_perm _ _

section ClaimWitnessC9

/-- Witness for C9 (amended) at the counterexample input. -/
theorem claim_C9_witness :
    List.Perm [((3 : ℕ), (1 : ℚ)), (2, 1 / 3), (1, 0)]
      (Pred.finalScores (fun _ => 0) (7 / 10) ["a", "b"] [4 - 2.5, 3 - 2.5]
        (Pred.genderFilter "unisex"
          [⟨1, some "unisex", none, none, none, []⟩,
           ⟨2, some "unisex", none, none, none,
             ["f1", "f2", "f3", "f4", "f5", "b"]⟩,
           ⟨3, some "unisex", none, none, none,
             ["f1", "f2", "f3", "f4", "f5", "a"]⟩])) :=
  claim_C9 (fun _ => 0) (7 / 10) ["a", "b"]
    [⟨1, some "unisex", none, none, none, []⟩,
     ⟨2, some "unisex", none, none, none,
       ["f1", "f2", "f3", "f4", "f5", "b"]⟩,
     ⟨3, some "unisex", none, none, none,
       ["f1", "f2", "f3", "f4", "f5", "a"]⟩]
    (some [("gender", Pred.JVal.str "unisex"), ("a", Pred.JVal.num 4),
           ("b", Pred.JVal.num 3)])
    [4 - 2.5, 3 - 2.5] "unisex" [(3, 1), (2, 1 / 3), (1, 0)]
    (by decide) (by decide)

end ClaimWitnessC9

/-! ### Claim C7: the vocabulary builder -/

namespace Pred

theorem charListLt_iff : ∀ (l1 l2 : List Char), charListLt l1 l2 = true ↔ l1 < l2 := by
  intro l1
  induction l1 with
  | nil =>
      intro l2
      cases l2 with
      | nil => exact iff_of_false (by simp [charListLt]) nofun
      | cons d ds => exact iff_of_true rfl List.Lex.nil
  | cons c cs ih =>
      intro l2
      cases l2 with
      | nil => exact iff_of_false (by simp [charListLt]) nofun
      | cons d ds =>
          simp only [charListLt]
          by_cases h1 : c < d
          · rw [if_pos h1]
            exact iff_of_true rfl (List.Lex.rel h1)
          · rw [if_neg h1]
            by_cases h2 : d < c
            · rw [if_pos h2]
              refine iff_of_false (by simp) ?_
              intro h
              cases h with
              | cons h3 => exact absurd h2 (lt_irrefl _)
              | rel h3 => exact h1 h3
            · have hcd : c = d := le_antisymm (not_lt.mp h2) (not_lt.mp h1)
              subst hcd
              rw [if_neg h2, ih ds]
              constructor
              · exact fun h => List.Lex.cons h
              · intro h
                cases h with
                | cons h3 => exact h3
                | rel h3 => exact absurd h3 h1

theorem strLt_iff (a b : String) : strLt a b = true ↔ a < b := by
  rw [String.lt_iff_toList_lt]
  exact charListLt_iff a.data b.data

theorem strLt_asym : ∀ a b : String, strLt a b = true → strLt b a = false := by
  intro a b hab
  cases h : strLt b a with
  | false => rfl
  | true =>
      exact absurd ((strLt_iff b a).mp h)
        (lt_asymm ((strLt_iff a b).mp hab))

theorem strLt_negtrans :
    ∀ a b c : String, strLt b a = false → strLt c b = false →
      strLt c a = false := by
  intro a b c hba hcb
  cases h : strLt c a with
  | false => rfl
  | true =>
      have h1 : a ≤ b := not_lt.mp (fun hh => by
        simp [(strLt_iff b a).mpr hh] at hba)
      have h2 : b ≤ c := not_lt.mp (fun hh => by
        simp [(strLt_iff c b).mpr hh] at hcb)
      exact absurd ((strLt_iff c a).mp h) (not_lt.mpr (le_trans h1 h2))

end Pred

/-- Counterexample to claim C7.  `ORDER BY name` sorts the *original*
(case-sensitive) names, and lower-casing happens only afterwards: with
stored accord names `B` and `a` (both attached), the builder returns
`["b", "a"]`, which is not sorted lexicographically.  (Mixed-case
duplicates such as `Rose`/`rose` likewise survive as duplicate
lower-cased names.) -/
theorem claim_C7_counterexample :
    Pred.getAllAccordList ["B", "a"]
        [⟨1, some "unisex", none, none, none, ["B", "a"]⟩] = ["b", "a"] ∧
    ¬ (Pred.getAllAccordList ["B", "a"]
        [⟨1, some "unisex", none, none, none, ["B", "a"]⟩]).Pairwise
      (· ≤ ·) := by
  have heq : Pred.getAllAccordList ["B", "a"]
      [⟨1, some "unisex", none, none, none, ["B", "a"]⟩] = ["b", "a"] := by
    decide
  refine ⟨heq, ?_⟩
  rw [heq]
  intro hp
  have hba : "b" ≤ "a" :=
    (List.pairwise_cons.mp hp).1 "a" (List.mem_singleton.mpr rfl)
  have hab : "a" < "b" := (Pred.strLt_iff "a" "b").mp (by decide)
  exact absurd hba (not_le.mpr hab)

/-- Claim C7 (amended): on a table of accord names that are already
lower-case (as produced by a case-normalized import) and pairwise
distinct (the model's `unique=True` column), the vocabulary builder
returns exactly the lower-cased names of the accords attached to at
least one catalog item, without duplicates and sorted lexicographically;
the empty list results when no item has an accord.  Determinism holds
unconditionally (the builder is a pure function of the table state).
With mixed-case stored names, the output is ordered by the *original*
names and may be unsorted or contain duplicates (see the
counterexample). -/
theorem claim_C7 (accordTable : List String) (catalog : List Pred.PerfumeRow)
    (hlow : ∀ n ∈ accordTable, pyLower n = n) (hnd : accordTable.Nodup) :
    (Pred.getAllAccordList accordTable catalog).Pairwise (· ≤ ·) ∧
    (Pred.getAllAccordList accordTable catalog).Nodup ∧
    (∀ x, x ∈ Pred.getAllAccordList accordTable catalog ↔
      (x ∈ accordTable ∧ x ≠ "" ∧ ∃ p ∈ catalog, x ∈ p.accords)) ∧
    ((∀ p ∈ catalog, p.accords = []) →
      Pred.getAllAccordList accordTable catalog = []) := by
  set attached := accordTable.filter
    (fun n => catalog.any (fun p => p.accords.contains n)) with hatt
  have hsub : ∀ n ∈ attached, n ∈ accordTable := by
    intro n hn
    exact (List.mem_filter.mp hn).1
  have hsorted_mem : ∀ n ∈ insSort Pred.strLt attached, n ∈ accordTable :=
    fun n hn => hsub n ((insSort_mem _ n _).mp hn)
  have hmapid :
      Pred.getAllAccordList accordTable catalog =
        (insSort Pred.strLt attached).filter (fun n => n ≠ "") := by
    simp only [Pred.getAllAccordList, ← hatt]
    refine (List.map_congr_left ?_).trans (List.map_id _)
    intro n hn
    exact hlow n (hsorted_mem n (List.mem_of_mem_filter hn))
  refine ⟨?_, ?_, ?_, ?_⟩
  · rw [hmapid]
    refine List.Pairwise.filter _ ?_
    have h := insSort_pairwise Pred.strLt Pred.strLt_asym Pred.strLt_negtrans
      attached
    exact h.imp (fun {a b} hab => by
      have : ¬ b < a := fun hh => by
        simp [(Pred.strLt_iff b a).mpr hh] at hab
      exact not_lt.mp this)
  · rw [hmapid]
    refine List.Nodup.filter _ ?_
    exact ((insSort_perm Pred.strLt attached).nodup_iff).mpr
      (List.Nodup.filter _ hnd)
  · intro x
    rw [hmapid]
    constructor
    · intro hx
      have h1 := List.mem_filter.mp hx
      have h2 := List.mem_filter.mp ((insSort_mem _ x _).mp h1.1)
      refine ⟨h2.1, by simpa using h1.2, ?_⟩
      have h3 := h2.2
      simp only [List.any_eq_true] at h3
      obtain ⟨p, hp, hpc⟩ := h3
      exact ⟨p, hp, by simpa using hpc⟩
    · rintro ⟨hx1, hx2, p, hp, hpa⟩
      refine List.mem_filter.mpr ⟨?_, by simpa using hx2⟩
      refine (insSort_mem _ x _).mpr ?_
      refine List.mem_filter.mpr ⟨hx1, ?_⟩
      simp only [List.any_eq_true]
      exact ⟨p, hp, by simpa using hpa⟩
  · intro hall
    have hae : attached = [] := by
      rw [hatt]
      refine List.filter_eq_nil.mpr ?_
      intro n hn
      rw [Bool.not_eq_true, List.any_eq_false]
      intro p hp
      rw [hall p hp]
      simp
    rw [hmapid, hae]
    simp [insSort]

section ClaimWitnessC7

/-- Witness for C7 (amended) on a concrete lower-case accord table. -/
theorem claim_C7_witness :
    (Pred.getAllAccordList ["citrus", "amber"]
        [⟨1, some "unisex", none, none, none, ["amber"]⟩]).Pairwise (· ≤ ·) ∧
    (Pred.getAllAccordList ["citrus", "amber"]
        [⟨1, some "unisex", none, none, none, ["amber"]⟩]).Nodup ∧
    (∀ x, x ∈ Pred.getAllAccordList ["citrus", "amber"]
        [⟨1, some "unisex", none, none, none, ["amber"]⟩] ↔
      (x ∈ ["citrus", "amber"] ∧ x ≠ "" ∧
        ∃ p ∈ [(⟨1, some "unisex", none, none, none, ["amber"]⟩ :
          Pred.PerfumeRow)], x ∈ p.accords)) ∧
    ((∀ p ∈ [(⟨1, some "unisex", none, none, none, ["amber"]⟩ :
        Pred.PerfumeRow)], p.accords = []) →
      Pred.getAllAccordList ["citrus", "amber"]
        [⟨1, some "unisex", none, none, none, ["amber"]⟩] = []) :=
  claim_C7 ["citrus", "amber"]
    [⟨1, some "unisex", none, none, none, ["amber"]⟩]
    (by decide) (by decide)

end ClaimWitnessC7
